import Mathlib

/-!
# Verification of the `milter` package

A shallow embedding of the Go package `milter` (files `encoding.go`, `conn.go`,
`modify.go`, `interface.go`, `serve.go`) and theorems about it.

Conventions of the embedding:

* a byte is a natural number below 256; a Go `string` or `[]byte` is a list of bytes
  (`Str`); a byte written as a Go character literal appears as its code with the
  character in a comment;
* a fixed-width unsigned integer is a natural number, reduced modulo `2^w` at the
  places where the Go code converts or truncates;
* a Go map is an association list (`GoMap`); the nil map and the empty map are both `[]`;
* functions of the Go standard library used by the package (`io.ReadFull`,
  `binary.Read`, `bytes.IndexByte`, `strings.Split`, `strings.TrimSuffix`,
  `net.JoinHostPort`, `strconv.Itoa`, `textproto.CanonicalMIMEHeaderKey`,
  `bufio.Writer`) are modelled after their documented behaviour.
-/

namespace MilterPkg

/-- A byte: a natural number below 256. -/
abbrev Byte := Nat

/-- A Go `string` or `[]byte`: a sequence of bytes. -/
abbrev Str := List Byte

/-- The bytes of an ASCII string literal. -/
def ascii (s : String) : Str := s.toList.map Char.toNat

/-! ## encoding.go -/

/-- The kinds of value the codec accepts (`reflect.Kind` of the destination): every
other kind makes `decode` and `encode` panic. -/
inductive Shape where
  | uint8 : Shape
  | uint16 : Shape
  | uint32 : Shape
  | string : Shape
  | ptr : Shape → Shape
  | struct : List Shape → Shape

/-- A value of one of the supported kinds. -/
inductive Value where
  | uint8 : Nat → Value
  | uint16 : Nat → Value
  | uint32 : Nat → Value
  | string : Str → Value
  | ptr : Value → Value
  | struct : List Value → Value

/-- The errors `decoder.decode` returns. -/
inductive DecodeError where
  /-- The value `errNotEnoughData`. -/
  | errNotEnoughData : DecodeError
  /-- The error `"unterminated C string"`. -/
  | unterminatedCString : DecodeError
deriving DecidableEq, Repr

mutual
/-- The shape (static type) of a value. -/
def Value.shape : Value → Shape
  | .uint8 _ => .uint8
  | .uint16 _ => .uint16
  | .uint32 _ => .uint32
  | .string _ => .string
  | .ptr v => .ptr v.shape
  | .struct vs => .struct (Value.shapes vs)
/-- The shapes of the fields of a struct. -/
def Value.shapes : List Value → List Shape
  | [] => []
  | v :: vs => v.shape :: Value.shapes vs
end

mutual
/-- A value a Go program can hold and the wire format can carry: every integer lies in
the range of its type and no text contains a zero byte. -/
def Value.Valid : Value → Prop
  | .uint8 n => n < 2 ^ 8
  | .uint16 n => n < 2 ^ 16
  | .uint32 n => n < 2 ^ 32
  | .string s => (0 : Byte) ∉ s
  | .ptr v => v.Valid
  | .struct vs => Value.ValidFields vs
/-- Every field of a struct is valid. -/
def Value.ValidFields : List Value → Prop
  | [] => True
  | v :: vs => v.Valid ∧ Value.ValidFields vs
end

/-- The function `bytes.IndexByte`: the index of the first `b` in `data`, `none` for -1. -/
def indexByte : Str → Byte → Option Nat
  | [], _ => none
  | x :: xs, b => if x = b then some 0 else (indexByte xs b).map (· + 1)

/-- The function `binary.BigEndian.Uint16` (the caller has checked the length). -/
def bigEndianUint16 (d : Str) : Nat :=
  d.getD 0 0 * 2 ^ 8 + d.getD 1 0

/-- The function `binary.BigEndian.Uint32` (the caller has checked the length). -/
def bigEndianUint32 (d : Str) : Nat :=
  d.getD 0 0 * 2 ^ 24 + d.getD 1 0 * 2 ^ 16 + d.getD 2 0 * 2 ^ 8 + d.getD 3 0

/-- The two bytes `binary.Write` emits for a `uint16` in big-endian order. -/
def putUint16 (n : Nat) : Str :=
  [n / 2 ^ 8 % 256, n % 256]

/-- The four bytes `binary.Write` emits for a `uint32` in big-endian order. -/
def putUint32 (n : Nat) : Str :=
  [n / 2 ^ 24 % 256, n / 2 ^ 16 % 256, n / 2 ^ 8 % 256, n % 256]

mutual
/-- The method `(*decoder).decode`: the decoder's remaining data is passed in and the
data left after the value is returned with the value. -/
def decoder.decode : Shape → Str → Except DecodeError (Value × Str)
  | .ptr s, d =>
    match decoder.decode s d with
    | .error e => .error e
    | .ok (v, d') => .ok (.ptr v, d')
  | .uint8, d =>
    if d.length < 1 then .error .errNotEnoughData
    else .ok (.uint8 (d.getD 0 0), d.drop 1)
  | .uint16, d =>
    if d.length < 2 then .error .errNotEnoughData
    else .ok (.uint16 (bigEndianUint16 d), d.drop 2)
  | .uint32, d =>
    if d.length < 4 then .error .errNotEnoughData
    else .ok (.uint32 (bigEndianUint32 d), d.drop 4)
  | .string, d =>
    match indexByte d 0 with
    | none => .error .unterminatedCString
    | some i => .ok (.string (d.take i), d.drop (i + 1))
  | .struct fs, d =>
    match decoder.decodeFields fs d with
    | .error e => .error e
    | .ok (vs, d') => .ok (.struct vs, d')
/-- The loop over the fields of a struct in `(*decoder).decode`. -/
def decoder.decodeFields : List Shape → Str → Except DecodeError (List Value × Str)
  | [], d => .ok ([], d)
  | f :: fs, d =>
    match decoder.decode f d with
    | .error e => .error e
    | .ok (v, d') =>
      match decoder.decodeFields fs d' with
      | .error e => .error e
      | .ok (vs, d'') => .ok (v :: vs, d'')
end

/-- The function `decode`: decodes `data` into a destination of shape `dest`; data
left over after the last field is ignored. -/
def decode (data : Str) (dest : Shape) : Except DecodeError Value :=
  match decoder.decode dest data with
  | .error e => .error e
  | .ok (v, _) => .ok v

mutual
/-- The method `(*encoder).encode`: the bytes appended to the buffer. -/
def encoder.encode : Value → Str
  | .ptr v => encoder.encode v
  | .uint8 n => [n % 2 ^ 8]
  | .uint16 n => putUint16 (n % 2 ^ 16)
  | .uint32 n => putUint32 (n % 2 ^ 32)
  | .string s => s ++ [0]
  | .struct vs => encoder.encodeFields vs
/-- The loop over the fields of a struct in `(*encoder).encode`. -/
def encoder.encodeFields : List Value → Str
  | [] => []
  | v :: vs => encoder.encode v ++ encoder.encodeFields vs
end

/-- The function `encode`. -/
def encode (val : Value) : Str :=
  encoder.encode val

/-! ## Standard library -/

/-- A Go map with string keys, as an association list in order of first insertion. -/
abbrev GoMap (α : Type) := List (Str × α)

/-- The map read `m[k]`, `none` when the key is absent. -/
def GoMap.lookup {α : Type} : GoMap α → Str → Option α
  | [], _ => none
  | (k', v) :: m, k => if k' = k then some v else GoMap.lookup m k

/-- The map write `m[k] = v`. -/
def GoMap.set {α : Type} : GoMap α → Str → α → GoMap α
  | [], k, v => [(k, v)]
  | (k', v') :: m, k, v => if k' = k then (k, v) :: m else (k', v') :: GoMap.set m k v

/-- The function `strings.Split` with a one-byte separator: the substrings between the
separators; a string without separator gives the one-element list of itself. -/
def stringsSplit : Str → Byte → List Str
  | [], _ => [[]]
  | c :: cs, sep =>
    if c = sep then [] :: stringsSplit cs sep
    else
      match stringsSplit cs sep with
      | [] => [[c]]
      | t :: ts => (c :: t) :: ts

/-- The function `strings.TrimSuffix`. -/
def TrimSuffix (s suffix : Str) : Str :=
  if suffix.isSuffixOf s then s.take (s.length - suffix.length) else s

/-- The decimal digits of `n`, most significant first, in front of `acc`. -/
def decimalDigits : Nat → Nat → Str → Str
  | 0, _, acc => acc
  | fuel + 1, n, acc =>
    if n / 10 = 0 then (48 + n % 10) :: acc
    else decimalDigits fuel (n / 10) ((48 + n % 10) :: acc)

/-- The function `strconv.Itoa`. -/
def Itoa (i : Int) : Str :=
  if i < 0 then 45 :: decimalDigits (i.natAbs + 1) i.natAbs []
  else decimalDigits (i.natAbs + 1) i.natAbs []

/-- The function `net.JoinHostPort`: `host:port`, with the host in square brackets when
it contains a colon. -/
def JoinHostPort (host port : Str) : Str :=
  match indexByte host 58 with -- ':'
  | some _ => [91] ++ host ++ [93, 58] ++ port -- "[" host "]:" port
  | none => host ++ [58] ++ port

/-- The token characters of a header field name (`validHeaderFieldByte` of
`net/textproto`): letters, digits and ``!#$%&'*+-.^_`|~``. -/
def validHeaderFieldByte (c : Byte) : Bool :=
  (48 ≤ c && c ≤ 57) || (65 ≤ c && c ≤ 90) || (97 ≤ c && c ≤ 122) ||
    [33, 35, 36, 37, 38, 39, 42, 43, 45, 46, 94, 95, 96, 124, 126].contains c

/-- The canonicalising loop of `net/textproto`: upper case for the first letter and for
a letter after a hyphen, lower case for the other letters. -/
def canonicalLetters : Bool → Str → Str
  | _, [] => []
  | upper, c :: cs =>
    let c' :=
      if upper && (97 ≤ c && c ≤ 122) then c - 32
      else if !upper && (65 ≤ c && c ≤ 90) then c + 32
      else c
    c' :: canonicalLetters (c' == 45) cs

/-- The function `textproto.CanonicalMIMEHeaderKey`: a key with a space or another byte
that is invalid in a header field name is returned unchanged. -/
def CanonicalMIMEHeaderKey (s : Str) : Str :=
  if s.all validHeaderFieldByte then canonicalLetters true s else s

/-- The type `textproto.MIMEHeader`, a `map[string][]string`. -/
abbrev MIMEHeader := GoMap (List Str)

/-- The method `MIMEHeader.Add`: appends `value` to the values of the canonical form of
`key`. -/
def MIMEHeader.Add (h : MIMEHeader) (key value : Str) : MIMEHeader :=
  let key := CanonicalMIMEHeaderKey key
  GoMap.set h key ((GoMap.lookup h key).getD [] ++ [value])

/-- The errors the package returns. -/
inductive Error where
  /-- The value `io.EOF`. -/
  | EOF : Error
  /-- The value `io.ErrUnexpectedEOF`. -/
  | ErrUnexpectedEOF : Error
  /-- The error of a failed write to the connection. -/
  | connWrite : Error
  /-- The error `"zero-length command packet"`. -/
  | zeroLengthCommandPacket : Error
  /-- The error `"error decoding options from server: ..."`. -/
  | decodingOptions : DecodeError → Error
  /-- The error `"macro-definition packet with no data"`. -/
  | macroDefinitionNoData : Error
  /-- The error `"error decoding connection info: ..."`. -/
  | decodingConnectionInfo : DecodeError → Error
  /-- The error `"MAIL FROM with no address"`. -/
  | mailFromNoAddress : Error
  /-- The error `"RCPT TO with no address"`. -/
  | rcptToNoAddress : Error
  /-- The error `"header key/value pair with %d items (should be 2)"`. -/
  | headerItems : Nat → Error
deriving DecidableEq, Repr

/-- The function `io.ReadFull` for a buffer of `n` bytes on a stream that delivers
`input` and then ends: the result and the input left. The error is `EOF` when no byte
was read and `ErrUnexpectedEOF` when some but not all were; a buffer of length 0 is
filled without reading. -/
def ReadFull (input : Str) (n : Nat) : Except Error Str × Str :=
  if n = 0 then (.ok [], input)
  else if input.length = 0 then (.error .EOF, [])
  else if input.length < n then (.error .ErrUnexpectedEOF, [])
  else (.ok (input.take n), input.drop n)

/-! ## interface.go -/

/-- A `Response`: the pair its method `Response()` returns. -/
structure Response where
  /-- The status byte. -/
  code : Byte
  /-- The payload. -/
  data : Str
deriving DecidableEq, Repr

/-- The method `simpleResponse.Response`. -/
def simpleResponse (r : Byte) : Response := ⟨r, []⟩

/-- The response `Accept`. -/
def Accept : Response := simpleResponse 97 -- 'a'

/-- The response `Continue`. -/
def Continue : Response := simpleResponse 99 -- 'c'

/-- The response `Discard`. -/
def Discard : Response := simpleResponse 100 -- 'd'

/-- The response `Reject`. -/
def Reject : Response := simpleResponse 114 -- 'r'

/-- The response `TempFail`. -/
def TempFail : Response := simpleResponse 116 -- 't'

/-- The method `CustomResponse.Response`: `'y'` and the text `"%d %s\x00"`. -/
def CustomResponse (Code : Int) (Message : Str) : Response :=
  ⟨121, Itoa Code ++ [32] ++ Message ++ [0]⟩

/-- The macros of a command, a `map[string]string`. -/
abbrev Macros := GoMap Str

/-- A call of a method of the `Modifier` interface. -/
inductive Modification where
  | AddRecipient : Str → Modification
  | DeleteRecipient : Str → Modification
  | ReplaceBody : Str → Modification
  | AddHeader : Str → Str → Modification
  | ChangeHeader : Str → Int → Str → Modification
deriving DecidableEq, Repr

/-- The interface `Milter`, for an implementation with internal state `σ`: each method
returns its response and the new state. The `Modifier` methods return nothing, so what
`Body` does with its `Modifier` is the sequence of calls it makes. -/
structure Milter (σ : Type) where
  Connect : σ → Str → Str → Str → Macros → Response × σ
  Helo : σ → Str → Macros → Response × σ
  From : σ → Str → Macros → Response × σ
  To : σ → Str → Macros → Response × σ
  Headers : σ → MIMEHeader → Response × σ
  Body : σ → Str → List Modification × Response × σ

/-- A call of a method of the `Milter` interface, with its arguments. -/
inductive Call where
  | Connect : Str → Str → Str → Macros → Call
  | Helo : Str → Macros → Call
  | From : Str → Macros → Call
  | To : Str → Macros → Call
  | Headers : MIMEHeader → Call
  | Body : Str → Call
deriving DecidableEq, Repr

/-! ## conn.go -/

/-- The struct `conn`. The field `conn` (an `io.ReadWriteCloser`) is the three fields
`input`, `output` and `quota`; the field `bw` (a `bufio.Writer`, whose buffer is empty
between two calls of `writeResponse`) is its sticky error `bwErr`. -/
structure conn where
  /-- The bytes the connection will still deliver; after them the stream ends. -/
  input : Str
  /-- The bytes written to the connection so far. -/
  output : Str
  /-- The number of bytes the connection accepts before a write fails (`none`: writes
  never fail). -/
  quota : Option Nat
  /-- The sticky error of `bw`: once set, every method of `bw` returns it. -/
  bwErr : Option Error
  err : Option Error
  macros : Macros
  macrosFor : Byte
  headers : MIMEHeader
  body : Str
deriving DecidableEq, Repr

/-- The function `newConn` for a connection that will deliver `input` and accepts
`quota` bytes. -/
def newConn (input : Str) (quota : Option Nat) : conn :=
  { input := input, output := [], quota := quota, bwErr := none, err := none,
    macros := [], macrosFor := 0, headers := [], body := [] }

/-- The method `conn.readPacket`. -/
def conn.readPacket (c : conn) : conn × Except Error Str :=
  match ReadFull c.input 4 with
  | (.error e, rest) => ({ c with input := rest }, .error e)
  | (.ok b, rest) =>
    let length := bigEndianUint32 b
    match ReadFull rest length with
    | (.error e, rest') => ({ c with input := rest' }, .error e)
    | (.ok data, rest') => ({ c with input := rest' }, .ok data)

/-- The method `bw.Flush` with `buf` in the buffer: the buffer is written to the
connection; a connection that accepts fewer bytes takes those and the write fails,
which sets the sticky error of `bw`. -/
def conn.Flush (c : conn) (buf : Str) : conn × Option Error :=
  match c.quota with
  | none => ({ c with output := c.output ++ buf }, none)
  | some q =>
    if buf.length ≤ q then
      ({ c with output := c.output ++ buf, quota := some (q - buf.length) }, none)
    else
      ({ c with output := c.output ++ buf.take q, quota := some 0, bwErr := some .connWrite },
        some .connWrite)

/-- The method `conn.writeResponse`: the length, the code and the data go to the buffer
of `bw`, which is then flushed; with the sticky error set the first write returns it. -/
def conn.writeResponse (c : conn) (code : Byte) (data : Str) : conn × Option Error :=
  match c.bwErr with
  | some e => (c, some e)
  | none => c.Flush (putUint32 ((data.length + 1) % 2 ^ 32) ++ [code] ++ data)

/-- The function `splitCStrings`. -/
def splitCStrings (data : Str) : List Str :=
  if data.length = 0 then []
  else
    let data := if data.getD (data.length - 1) 0 = 0 then data.take (data.length - 1) else data
    stringsSplit data 0

/-- The function `stripBrackets`. -/
def stripBrackets (s brackets : Str) : Str :=
  if s.length > 2 ∧ s.getD 0 0 = brackets.getD 0 0 ∧
      s.getD (s.length - 1) 0 = brackets.getD 1 0 then
    (s.take (s.length - 1)).drop 1
  else s

/-! ## modify.go -/

/-- The method `conn.writeModification`. -/
def conn.writeModification (c : conn) (code : Byte) (data : Str) : conn :=
  match c.writeResponse code data with
  | (c', some err) => if c'.err = none then { c' with err := some err } else c'
  | (c', none) => c'

/-- The method `conn.AddRecipient`. -/
def conn.AddRecipient (c : conn) (r : Str) : conn :=
  c.writeModification 43 (encode (.string ([60] ++ r ++ [62]))) -- '+', "<" + r + ">"

/-- The method `conn.DeleteRecipient`. -/
def conn.DeleteRecipient (c : conn) (r : Str) : conn :=
  c.writeModification 45 (encode (.string ([60] ++ r ++ [62]))) -- '-', "<" + r + ">"

/-- The method `conn.ReplaceBody`. -/
def conn.ReplaceBody (c : conn) (newBody : Str) : conn :=
  c.writeModification 98 newBody -- 'b'

/-- The method `conn.AddHeader`. -/
def conn.AddHeader (c : conn) (name value : Str) : conn :=
  c.writeModification 104 (encode (.struct [.string name, .string value])) -- 'h'

/-- The method `conn.ChangeHeader`; `uint32(index)` is `index` modulo `2^32`. -/
def conn.ChangeHeader (c : conn) (name : Str) (index : Int) (value : Str) : conn :=
  c.writeModification 109 -- 'm'
    (encode (.struct [.uint32 (index % 2 ^ 32).toNat, .string name, .string value]))

/-- The `Modifier` method a call invokes on the connection. -/
def conn.modify (c : conn) : Modification → conn
  | .AddRecipient r => c.AddRecipient r
  | .DeleteRecipient r => c.DeleteRecipient r
  | .ReplaceBody newBody => c.ReplaceBody newBody
  | .AddHeader name value => c.AddHeader name value
  | .ChangeHeader name index value => c.ChangeHeader name index value

/-! ## serve.go -/

/-- The state of a run of `conn.run`: the connection, the state of the `Milter`, and
the calls of `Milter` methods made so far, oldest first. -/
structure Session (σ : Type) where
  c : conn
  m : σ
  calls : List Call

/-- The outcome of one iteration of the loop of `conn.run`: the loop goes on
(`continue`, or the end of the loop body), or `run` returns an error or nil. -/
inductive Step (σ : Type) where
  | loop : Session σ → Step σ
  | ret : Session σ → Option Error → Step σ

/-- The loop of the `'D'` case of `conn.run`:
`for i := 0; i < len(kv)-1; i += 2 { c.macros[stripBrackets(kv[i], "{}")] = kv[i+1] }`. -/
def defineMacros : List Str → Macros → Macros
  | k :: v :: kv, macros => defineMacros kv (GoMap.set macros (stripBrackets k [123, 125]) v)
  | _, macros => macros

/-- A call of `c.writeResponse` in `conn.run` with what follows it: `run` returns the
error of a failed write, and the loop goes on after a successful one. This is the end of
the loop body, `c.writeResponse(resp.Response())`, and the write of the `'O'` case, which
is followed by `continue`. -/
def conn.respond {σ : Type} (s : Session σ) (resp : Response) : Step σ :=
  match s.c.writeResponse resp.code resp.data with
  | (c, some err) => .ret { s with c := c } (some err)
  | (c, none) => .loop { s with c := c }

/-- The `switch command` of the loop body of `conn.run` with what follows it, for the
session after the macro-scope rule and the packet data after the command byte. In the
cases `'O'` and `'C'` the destination of `decode` is a pointer to the struct, and a
successful `decode` fills the fields of the struct; `decode` returns a value of the
shape of its destination (`decoder_decode_shape`), so the case of another value does
not occur. -/
def conn.dispatch {σ : Type} (milter : Milter σ) (s : Session σ) (command : Byte) (data : Str) :
    Step σ :=
  match command with
  | 79 => -- 'O'
    match decode data (.ptr (.struct [.uint32, .uint32, .uint32])) with
    | .error err => .ret s (some (.decodingOptions err))
    | .ok (.ptr (.struct [.uint32 Version, .uint32 Actions, .uint32 _])) =>
      conn.respond s ⟨79, encode (.struct [.uint32 Version, .uint32 Actions, .uint32 0])⟩
    | .ok _ => .ret s none
  | 68 => -- 'D'
    if data.length = 0 then .ret s (some .macroDefinitionNoData)
    else
      let kv := splitCStrings (data.drop 1)
      .loop { s with c := { s.c with macrosFor := data.getD 0 0, macros := defineMacros kv [] } }
  | 65 => -- 'A'
    .loop { s with c := { s.c with headers := [], body := [] } }
  | 81 => -- 'Q'
    .ret s none
  | 67 => -- 'C'
    match decode data (.ptr (.struct [.string, .uint8, .uint16, .string])) with
    | .error err => .ret s (some (.decodingConnectionInfo err))
    | .ok (.ptr (.struct [.string Hostname, .uint8 ProtocolFamily, .uint16 Port, .string Address])) =>
      let (network, address) : Str × Str :=
        match ProtocolFamily with
        | 76 => (ascii "unix", Address) -- 'L'
        | 52 => (ascii "tcp4", JoinHostPort Address (Itoa Port)) -- '4'
        | 54 => (ascii "tcp6", JoinHostPort Address (Itoa Port)) -- '6'
        | _ => ([], [])
      let (resp, m) := milter.Connect s.m Hostname network address s.c.macros
      conn.respond
        { s with m := m, calls := s.calls ++ [Call.Connect Hostname network address s.c.macros] }
        resp
    | .ok _ => .ret s none
  | 72 => -- 'H'
    let name := TrimSuffix data [0]
    let (resp, m) := milter.Helo s.m name s.c.macros
    conn.respond { s with m := m, calls := s.calls ++ [Call.Helo name s.c.macros] } resp
  | 77 => -- 'M'
    let args := splitCStrings data
    if args.length = 0 then .ret s (some .mailFromNoAddress)
    else
      let sender := stripBrackets (args.getD 0 []) [60, 62] -- "<>"
      let (resp, m) := milter.From s.m sender s.c.macros
      conn.respond { s with m := m, calls := s.calls ++ [Call.From sender s.c.macros] } resp
  | 82 => -- 'R'
    let args := splitCStrings data
    if args.length = 0 then .ret s (some .rcptToNoAddress)
    else
      let recipient := stripBrackets (args.getD 0 []) [60, 62] -- "<>"
      let (resp, m) := milter.To s.m recipient s.c.macros
      conn.respond { s with m := m, calls := s.calls ++ [Call.To recipient s.c.macros] } resp
  | 84 => -- 'T'
    conn.respond s Continue
  | 76 => -- 'L'
    let keyVal := splitCStrings data
    if keyVal.length ≠ 2 then .ret s (some (.headerItems keyVal.length))
    else
      conn.respond
        { s with
          c := { s.c with
            headers := MIMEHeader.Add s.c.headers (keyVal.getD 0 []) (keyVal.getD 1 []) } }
        Continue
  | 78 => -- 'N'
    let (resp, m) := milter.Headers s.m s.c.headers
    conn.respond
      { s with
        c := { s.c with headers := [] }, m := m, calls := s.calls ++ [Call.Headers s.c.headers] }
      resp
  | 66 => -- 'B'
    conn.respond { s with c := { s.c with body := s.c.body ++ data } } Continue
  | 69 => -- 'E'
    let (mods, resp, m) := milter.Body s.m s.c.body
    let c := mods.foldl conn.modify s.c
    match c.err with
    | some err => .ret { s with c := c, m := m, calls := s.calls ++ [Call.Body s.c.body] } (some err)
    | none =>
      conn.respond
        { s with c := { c with body := [] }, m := m, calls := s.calls ++ [Call.Body s.c.body] }
        resp
  | _ =>
    conn.respond s Continue

/-- The macro-scope rule of `conn.run`: `if command != c.macrosFor { c.macros = nil }`. -/
def conn.scopeMacros (c : conn) (command : Byte) : conn :=
  if command ≠ c.macrosFor then { c with macros := [] } else c

/-- The body of the loop of `conn.run` from the check of the packet length on, for the
packet `data` that `readPacket` returned. -/
def conn.handle {σ : Type} (milter : Milter σ) (s : Session σ) (data : Str) : Step σ :=
  if data.length = 0 then .ret s (some .zeroLengthCommandPacket)
  else
    let command := data.getD 0 0
    let data := data.drop 1
    conn.dispatch milter { s with c := s.c.scopeMacros command } command data

/-- One iteration of the loop of `conn.run`. -/
def conn.iteration {σ : Type} (milter : Milter σ) (s : Session σ) : Step σ :=
  match s.c.readPacket with
  | (c, .error .EOF) => .ret { s with c := c } none
  | (c, .error err) => .ret { s with c := c } (some err)
  | (c, .ok data) => conn.handle milter { s with c := c } data

/-- The first `n` iterations of the loop of `conn.run`: `loop` when the loop is still
running after them. -/
def conn.runLoop {σ : Type} (milter : Milter σ) : Nat → Session σ → Step σ
  | 0, s => .loop s
  | n + 1, s =>
    match conn.iteration milter s with
    | .ret s' err => .ret s' err
    | .loop s' => conn.runLoop milter n s'

/-- The method `conn.run`: the final state and the error returned (`none` for nil).
Every iteration that does not return consumes input, so one iteration more than there
are bytes of input ends the loop; the result is `none` only if it did not. -/
def conn.run {σ : Type} (milter : Milter σ) (s : Session σ) : Option (Session σ × Option Error) :=
  match conn.runLoop milter (s.c.input.length + 1) s with
  | .ret s' err => some (s', err)
  | .loop _ => none

/-- The start of `run` on a fresh connection: a new `conn` and a `Milter` in state `m`. -/
def Session.start {σ : Type} (input : Str) (quota : Option Nat) (m : σ) : Session σ :=
  { c := newConn input quota, m := m, calls := [] }

/-- The wire form of a packet with the given payload: the payload after its length as
4 bytes in big-endian order. -/
def frame (payload : Str) : Str :=
  putUint32 payload.length ++ payload

/-! ## Notions used in the statements -/

/-- The session a step ends in. -/
def Step.session {σ : Type} : Step σ → Session σ
  | .loop s => s
  | .ret s _ => s

/-- The error a step returns: `none` when the loop goes on or `run` returns nil. -/
def Step.error {σ : Type} : Step σ → Option Error
  | .loop _ => none
  | .ret _ err => err

/-- Whether the loop goes on after a step. -/
def Step.continues {σ : Type} : Step σ → Bool
  | .loop _ => true
  | .ret _ _ => false

/-- The calls of `Milter` methods a step made, when the session had made `before`. -/
def Step.newCalls {σ : Type} (st : Step σ) (before : Session σ) : List Call :=
  st.session.calls.drop before.calls.length

/-- The bytes a step wrote to the connection, when the session had written `before`. -/
def Step.written {σ : Type} (st : Step σ) (before : Session σ) : Str :=
  st.session.c.output.drop before.c.output.length

/-- The macros a call of a `Milter` method passes; `Headers` and `Body` take none. -/
def Call.macros? : Call → Option Macros
  | .Connect _ _ _ macros => some macros
  | .Helo _ macros => some macros
  | .From _ macros => some macros
  | .To _ macros => some macros
  | .Headers _ => none
  | .Body _ => none

/-- The wire form of a sequence of packets. -/
def frames : List Str → Str
  | [] => []
  | p :: ps => frame p ++ frames ps

/-- The bytes of the packet `writeResponse(code, data)` writes. -/
def packetBytes (code : Byte) (data : Str) : Str :=
  putUint32 ((data.length + 1) % 2 ^ 32) ++ [code] ++ data

/-- The macros in scope for a command with tag `t` after the command packets `history`
(newest first) have been processed: those of the most recent Define-macros packet, when
it declared the target `t` and every command since had the tag `t`. -/
def macrosInScope : List Str → Byte → Macros
  | [], _ => []
  | p :: older, t =>
    if p.getD 0 0 = 68 then -- 'D'
      if p.getD 1 0 = t then defineMacros (splitCStrings (p.drop 2)) [] else []
    else if p.getD 0 0 = t then macrosInScope older t
    else []

/-- The code and the data of the packet a `Modifier` call writes (modify.go). -/
def Modification.packet : Modification → Byte × Str
  | .AddRecipient r => (43, encode (.string ([60] ++ r ++ [62])))
  | .DeleteRecipient r => (45, encode (.string ([60] ++ r ++ [62])))
  | .ReplaceBody newBody => (98, newBody)
  | .AddHeader name value => (104, encode (.struct [.string name, .string value]))
  | .ChangeHeader name index value =>
    (109, encode (.struct [.uint32 (index % 2 ^ 32).toNat, .string name, .string value]))

/-- The bytes of the packets a sequence of `Modifier` calls writes, in the order of the
calls. -/
def modificationBytes : List Modification → Str
  | [] => []
  | mod :: mods => packetBytes mod.packet.1 mod.packet.2 ++ modificationBytes mods

/-- The values of the headers `hdrs` (name and value, in the order received) whose
name has the canonical form `key`. -/
def hdrsOf (hdrs : List (Str × Str)) (key : Str) : List Str :=
  (hdrs.filter (fun nv => CanonicalMIMEHeaderKey nv.1 = key)).map Prod.snd

/-- The command bytes `conn.run` has a case for: `O D A Q C H M R T L N B E`. -/
def commandTags : List Byte := [79, 68, 65, 81, 67, 72, 77, 82, 84, 76, 78, 66, 69]

/-- The concatenation of the strings of a list, each followed by one zero byte. -/
def cstrings : List Str → Str
  | [] => []
  | s :: ss => s ++ 0 :: cstrings ss

/-- The names and values of a list of pairs, alternating. -/
def alternating : List (Str × Str) → List Str
  | [] => []
  | nv :: nvs => nv.1 :: nv.2 :: alternating nvs

/-- The Define-macros packet with the target `t` and the name/value pairs `pairs`. -/
def definePacket (t : Byte) (pairs : List (Str × Str)) : Str :=
  68 :: t :: cstrings (alternating pairs)

/-! ## Sample milters and packets -/

/-- A `Milter` without state: every method returns `Continue`, and `Body` makes no
`Modifier` call. -/
def continueMilter : Milter Unit :=
  { Connect := fun _ _ _ _ _ => (Continue, ()),
    Helo := fun _ _ _ => (Continue, ()),
    From := fun _ _ _ => (Continue, ()),
    To := fun _ _ _ => (Continue, ()),
    Headers := fun _ _ => (Continue, ()),
    Body := fun _ _ => ([], Continue, ()) }

/-- A `Milter` whose `Body` calls `AddHeader("X-Seen", "yes")`, then
`ChangeHeader("Subject", 1, "")`, and returns `Accept`. -/
def headerMilter : Milter Unit :=
  { continueMilter with
    Body := fun _ _ =>
      ([.AddHeader (ascii "X-Seen") (ascii "yes"), .ChangeHeader (ascii "Subject") 1 []],
        Accept, ()) }

/-- The Define-macros packet with target `'H'` and the pair `{x}`, `1`. -/
def defineForHelo : Str := definePacket 72 [(ascii "{x}", ascii "1")]

/-- The Helo packet for the name `mx`. -/
def heloPacket : Str := [72] ++ ascii "mx" ++ [0]

/-- The Connect packet for the host `mx` at the IPv4 address `192.0.2.1`, port 25. -/
def connectPacket : Str := [67] ++ ascii "mx" ++ [0, 52, 0, 25] ++ ascii "192.0.2.1" ++ [0]

/-- The Header packet for a name and a value. -/
def headerPacket (name value : Str) : Str := [76] ++ name ++ [0] ++ value ++ [0]

/-- The number a string of decimal digits denotes. -/
def decimalValue (s : Str) : Nat :=
  s.foldl (fun v d => 10 * v + (d - 48)) 0


/-- A field as the wire format sees it: an unsigned integer of a fixed width in bytes
(1, 2 or 4), or a text. -/
inductive FieldKind where
  | fixed : Nat → FieldKind
  | text : FieldKind
deriving DecidableEq, Repr

/-- The value of a field: an integer with its width, or a text. -/
inductive FieldValue where
  | int : Nat → Nat → FieldValue
  | text : Str → FieldValue
deriving DecidableEq, Repr

mutual
/-- The fields of a record shape in declared order, those of nested records in place. -/
def Shape.fields : Shape → List FieldKind
  | .uint8 => [.fixed 1]
  | .uint16 => [.fixed 2]
  | .uint32 => [.fixed 4]
  | .string => [.text]
  | .ptr s => s.fields
  | .struct fs => Shape.fieldsOfStruct fs
/-- The fields of the fields of a struct, in declared order. -/
def Shape.fieldsOfStruct : List Shape → List FieldKind
  | [] => []
  | f :: fs => f.fields ++ Shape.fieldsOfStruct fs
end

mutual
/-- The values of the fields of a record in declared order. -/
def Value.fieldValues : Value → List FieldValue
  | .uint8 n => [.int 1 n]
  | .uint16 n => [.int 2 n]
  | .uint32 n => [.int 4 n]
  | .string s => [.text s]
  | .ptr v => v.fieldValues
  | .struct vs => Value.fieldValuesOfStruct vs
/-- The values of the fields of the fields of a struct, in declared order. -/
def Value.fieldValuesOfStruct : List Value → List FieldValue
  | [] => []
  | v :: vs => v.fieldValues ++ Value.fieldValuesOfStruct vs
end

/-- The unsigned integer that bytes in big-endian order denote. -/
def bigEndianValue (bs : Str) : Nat :=
  bs.foldl (fun v b => v * 256 + b) 0

/-- Decoding as the specification describes it, field by field in declared order: a
fixed-width field fails with insufficient data when fewer bytes remain than its width
and otherwise takes that many bytes; a text field fails as unterminated when no zero
byte remains and otherwise takes the bytes up to the first zero byte and consumes that
zero byte; the first failing field gives the error. -/
def specDecode : List FieldKind → Str → Except DecodeError (List FieldValue × Str)
  | [], d => .ok ([], d)
  | .fixed w :: ks, d =>
    if d.length < w then .error .errNotEnoughData
    else
      match specDecode ks (d.drop w) with
      | .error e => .error e
      | .ok (vs, rest) => .ok (.int w (bigEndianValue (d.take w)) :: vs, rest)
  | .text :: ks, d =>
    if (0 : Byte) ∈ d then
      match specDecode ks ((d.dropWhile (fun b => b != 0)).drop 1) with
      | .error e => .error e
      | .ok (vs, rest) => .ok (.text (d.takeWhile (fun b => b != 0)) :: vs, rest)
    else .error .unterminatedCString


/-- The concatenation of byte sequences, in order. -/
def concat : List Str → Str
  | [] => []
  | p :: ps => p ++ concat ps


/-- A command in the course of a message, as the statements about the header
accumulator see it: a Header command with its name and value, or another command
packet. -/
inductive MessageCommand where
  | header : Str → Str → MessageCommand
  | other : Str → MessageCommand

/-- The packet of a command. -/
def MessageCommand.packet : MessageCommand → Str
  | .header name value => headerPacket name value
  | .other p => p

/-- A Header command is well formed when its name and value hold no zero byte; another
command is one whose tag is not that of Header (`'L'`), Abort (`'A'`) or End-of-headers
(`'N'`). -/
def MessageCommand.WellFormed : MessageCommand → Prop
  | .header name value => (0 : Byte) ∉ name ∧ (0 : Byte) ∉ value
  | .other p => p.getD 0 0 ≠ 76 ∧ p.getD 0 0 ≠ 65 ∧ p.getD 0 0 ≠ 78

instance : DecidablePred MessageCommand.WellFormed := fun c =>
  match c with
  | .header name value =>
    inferInstanceAs (Decidable ((0 : Byte) ∉ name ∧ (0 : Byte) ∉ value))
  | .other p =>
    inferInstanceAs (Decidable (p.getD 0 0 ≠ 76 ∧ p.getD 0 0 ≠ 65 ∧ p.getD 0 0 ≠ 78))

/-- The names and values of the Header commands of a sequence, in order. -/
def headersOf : List MessageCommand → List (Str × Str)
  | [] => []
  | .header name value :: cs => (name, value) :: headersOf cs
  | .other _ :: cs => headersOf cs

/-- The payloads of the Body-chunk packets (tag `'B'`) among the command packets `ps`,
in order. -/
def bodyChunks : List Str → List Str
  | [] => []
  | p :: ps => if p.getD 0 0 = 66 then p.drop 1 :: bodyChunks ps else bodyChunks ps

/-! ## Theorems: the record codec -/

theorem indexByte_append_zero (s rest : Str) (h : (0 : Byte) ∉ s) :
    indexByte (s ++ 0 :: rest) 0 = some s.length := by
  induction s with
  | nil => simp [indexByte]
  | cons x xs ih =>
    have hx : x ≠ 0 := fun e => h (by simp [e])
    have hxs : (0 : Byte) ∉ xs := fun e => h (by simp [e])
    simp [indexByte, hx, ih hxs]

theorem bigEndianUint16_putUint16 (n : Nat) (rest : Str) (h : n < 2 ^ 16) :
    bigEndianUint16 (putUint16 n ++ rest) = n := by
  simp only [bigEndianUint16, putUint16, List.cons_append, List.nil_append, List.getD_cons_zero,
    List.getD_cons_succ]
  omega

theorem bigEndianUint32_putUint32 (n : Nat) (rest : Str) (h : n < 2 ^ 32) :
    bigEndianUint32 (putUint32 n ++ rest) = n := by
  simp only [bigEndianUint32, putUint32, List.cons_append, List.nil_append, List.getD_cons_zero,
    List.getD_cons_succ]
  omega

mutual
theorem decoder_decode_encode (v : Value) (hv : v.Valid) (rest : Str) :
    decoder.decode v.shape (encoder.encode v ++ rest) = .ok (v, rest) := by
  cases v with
  | uint8 n =>
    simp only [Value.Valid] at hv
    simp only [Value.shape, encoder.encode, decoder.decode, Nat.mod_eq_of_lt hv]
    simp
  | uint16 n =>
    simp only [Value.Valid] at hv
    simp only [Value.shape, encoder.encode, decoder.decode, Nat.mod_eq_of_lt hv,
      bigEndianUint16_putUint16 n rest hv]
    simp [putUint16]
  | uint32 n =>
    simp only [Value.Valid] at hv
    simp only [Value.shape, encoder.encode, decoder.decode, Nat.mod_eq_of_lt hv,
      bigEndianUint32_putUint32 n rest hv]
    simp [putUint32]
  | string s =>
    simp only [Value.Valid] at hv
    simp [Value.shape, encoder.encode, decoder.decode, indexByte_append_zero s rest hv]
  | ptr w =>
    simp only [Value.Valid] at hv
    simp [Value.shape, encoder.encode, decoder.decode, decoder_decode_encode w hv rest]
  | struct vs =>
    simp only [Value.Valid] at hv
    simp [Value.shape, encoder.encode, decoder.decode, decoder_decodeFields_encode vs hv rest]
theorem decoder_decodeFields_encode (vs : List Value) (hv : Value.ValidFields vs) (rest : Str) :
    decoder.decodeFields (Value.shapes vs) (encoder.encodeFields vs ++ rest) = .ok (vs, rest) := by
  cases vs with
  | nil => simp [Value.shapes, encoder.encodeFields, decoder.decodeFields]
  | cons w ws =>
    simp only [Value.ValidFields] at hv
    simp [Value.shapes, encoder.encodeFields, decoder.decodeFields, List.append_assoc,
      decoder_decode_encode w hv.1 (encoder.encodeFields ws ++ rest),
      decoder_decodeFields_encode ws hv.2 rest]
end

/-- C1. Codec round trip: for every record `r` built from the supported kinds (uint8,
uint16, uint32, NUL-terminated text, pointers to and nested records of these) whose
integers are in range and whose text fields contain no zero byte, decoding the encoding
of `r` into a destination of the shape of `r` succeeds and yields `r`. -/
theorem decode_encode_roundtrip (r : Value) (hr : r.Valid) :
    decode (encode r) r.shape = .ok r := by
  have h := decoder_decode_encode r hr []
  simp only [List.append_nil] at h
  simp [decode, encode, h]

theorem decode_encode_roundtrip_witness :
    (Value.struct [.uint8 76, .struct [.uint16 25, .string (ascii "mx")],
        .uint32 4000000000, .string []]).Valid ∧
      decode (encode (.struct [.uint8 76, .struct [.uint16 25, .string (ascii "mx")],
        .uint32 4000000000, .string []]))
        (Value.struct [.uint8 76, .struct [.uint16 25, .string (ascii "mx")],
        .uint32 4000000000, .string []]).shape
        = .ok (.struct [.uint8 76, .struct [.uint16 25, .string (ascii "mx")],
        .uint32 4000000000, .string []]) :=
  ⟨by simp [Value.Valid, Value.ValidFields, ascii],
   decode_encode_roundtrip _ (by simp [Value.Valid, Value.ValidFields, ascii])⟩

mutual
/-- A successful `decode` returns a value of the shape of its destination. -/
theorem decoder_decode_shape (sh : Shape) (d : Str) (v : Value) (d' : Str)
    (h : decoder.decode sh d = .ok (v, d')) : v.shape = sh := by
  cases sh with
  | uint8 =>
    simp only [decoder.decode] at h
    split at h
    · cases h
    · cases h; rfl
  | uint16 =>
    simp only [decoder.decode] at h
    split at h
    · cases h
    · cases h; rfl
  | uint32 =>
    simp only [decoder.decode] at h
    split at h
    · cases h
    · cases h; rfl
  | string =>
    simp only [decoder.decode] at h
    split at h
    · cases h
    · cases h; rfl
  | ptr sh' =>
    simp only [decoder.decode] at h
    split at h
    · cases h
    · rename_i w d'' hw
      cases h
      simp [Value.shape, decoder_decode_shape sh' d w _ hw]
  | struct fs =>
    simp only [decoder.decode] at h
    split at h
    · cases h
    · rename_i ws d'' hw
      cases h
      simp [Value.shape, decoder_decodeFields_shape fs d ws _ hw]
theorem decoder_decodeFields_shape (fs : List Shape) (d : Str) (vs : List Value) (d' : Str)
    (h : decoder.decodeFields fs d = .ok (vs, d')) : Value.shapes vs = fs := by
  cases fs with
  | nil =>
    simp only [decoder.decodeFields] at h
    cases h
    rfl
  | cons f fs' =>
    simp only [decoder.decodeFields] at h
    split at h
    · cases h
    · rename_i w d1 hw
      split at h
      · cases h
      · rename_i ws d2 hws
        cases h
        simp [Value.shapes, decoder_decode_shape f d w d1 hw,
          decoder_decodeFields_shape fs' d1 ws _ hws]
end

/-! ## Theorems: packet framing -/

theorem putUint32_length (n : Nat) : (putUint32 n).length = 4 := rfl

theorem ReadFull_append (a rest : Str) : ReadFull (a ++ rest) a.length = (.ok a, rest) := by
  unfold ReadFull
  by_cases h0 : a.length = 0
  · have : a = [] := List.length_eq_zero.mp h0
    simp [this]
  · have h1 : ¬ (a.length + rest.length = 0) := by omega
    simp [h0, h1]

theorem readPacket_frame (c : conn) (p rest : Str) (hlen : p.length < 2 ^ 32)
    (hin : c.input = frame p ++ rest) :
    c.readPacket = ({ c with input := rest }, .ok p) := by
  have h4 : ReadFull (putUint32 p.length ++ (p ++ rest)) 4 = (.ok (putUint32 p.length), p ++ rest) :=
    ReadFull_append (putUint32 p.length) (p ++ rest)
  have hb : bigEndianUint32 (putUint32 p.length) = p.length := by
    have := bigEndianUint32_putUint32 p.length [] hlen
    simpa using this
  simp only [conn.readPacket, hin, frame, List.append_assoc, h4, hb, ReadFull_append]

/-- The bytes `writeResponse(code, data)` puts on the wire: the length `len(data)+1` as
a `uint32` in big-endian order, the code, the data. -/
theorem writeResponse_ok (c : conn) (code : Byte) (data : Str) (hbw : c.bwErr = none)
    (hq : ∀ q, c.quota = some q → data.length + 5 ≤ q) :
    (c.writeResponse code data).2 = none ∧
      (c.writeResponse code data).1 =
        { c with
          output := c.output ++ (putUint32 ((data.length + 1) % 2 ^ 32) ++ [code] ++ data),
          quota := c.quota.map (· - (data.length + 5)) } := by
  unfold conn.writeResponse conn.Flush
  rw [hbw]
  cases hqc : c.quota with
  | none => simp [hqc]
  | some q =>
    have := hq q hqc
    have hl : (putUint32 ((data.length + 1) % 2 ^ 32) ++ [code] ++ data).length = data.length + 5 := by
      simp [putUint32]
    simp only [hl]
    simp [this, hqc]

/-- C2. Framing round trip: for every status byte `code` and payload `data` with
`len(data)+1 < 2^32`, a `writeResponse(code, data)` whose write succeeds emits exactly
the 4-byte big-endian value `len(data)+1`, then `code`, then `data`, and returns no
error; and `readPacket` on a stream that starts with those bytes returns `code` followed
by `data` with no error, leaving what follows them. -/
theorem writeResponse_readPacket_roundtrip (c : conn) (code : Byte) (data : Str)
    (hlen : data.length + 1 < 2 ^ 32) (hbw : c.bwErr = none)
    (hq : ∀ q, c.quota = some q → data.length + 5 ≤ q) :
    (c.writeResponse code data).2 = none ∧
      (c.writeResponse code data).1.output =
        c.output ++ (putUint32 (data.length + 1) ++ [code] ++ data) ∧
      ∀ (r : conn) (rest : Str),
        r.input = putUint32 (data.length + 1) ++ [code] ++ data ++ rest →
        r.readPacket = ({ r with input := rest }, .ok (code :: data)) := by
  obtain ⟨h1, h2⟩ := writeResponse_ok c code data hbw hq
  refine ⟨h1, ?_, ?_⟩
  · rw [h2, Nat.mod_eq_of_lt hlen]
  · intro r rest hin
    apply readPacket_frame r (code :: data) rest (by simpa using hlen)
    simp [hin, frame]

theorem writeResponse_readPacket_roundtrip_witness :
    ((newConn [] (some 9)).writeResponse 99 [1, 2, 3]).2 = none ∧
      ((newConn [] (some 9)).writeResponse 99 [1, 2, 3]).1.output =
        [] ++ (putUint32 ([1, 2, 3].length + 1) ++ [99] ++ [1, 2, 3]) ∧
      ∀ (r : conn) (rest : Str),
        r.input = putUint32 ([1, 2, 3].length + 1) ++ [99] ++ [1, 2, 3] ++ rest →
        r.readPacket = ({ r with input := rest }, .ok (99 :: [1, 2, 3])) :=
  writeResponse_readPacket_roundtrip (newConn [] (some 9)) 99 [1, 2, 3] (by decide) rfl
    (by intro q hq; cases hq; decide)

/-! ## Theorems: the dispatch loop -/

theorem writeResponse_fields (c : conn) (code : Byte) (data : Str) :
    (c.writeResponse code data).1.input = c.input ∧
      (c.writeResponse code data).1.macros = c.macros ∧
      (c.writeResponse code data).1.macrosFor = c.macrosFor ∧
      (c.writeResponse code data).1.headers = c.headers ∧
      (c.writeResponse code data).1.body = c.body ∧
      (c.writeResponse code data).1.err = c.err := by
  unfold conn.writeResponse conn.Flush
  cases c.bwErr <;> cases c.quota <;> simp
  split <;> simp

theorem session_loop {σ : Type} (s : Session σ) : (Step.loop s).session = s := rfl

theorem session_ret {σ : Type} (s : Session σ) (e : Option Error) : (Step.ret s e).session = s := rfl

theorem respond_session {σ : Type} (s : Session σ) (resp : Response) :
    (conn.respond s resp).session =
      { s with c := (s.c.writeResponse resp.code resp.data).1 } := by
  unfold conn.respond
  split <;> simp_all [Step.session]

theorem writeModification_fields (c : conn) (code : Byte) (data : Str) :
    (c.writeModification code data).input = c.input ∧
      (c.writeModification code data).macros = c.macros ∧
      (c.writeModification code data).macrosFor = c.macrosFor ∧
      (c.writeModification code data).headers = c.headers ∧
      (c.writeModification code data).body = c.body := by
  have h := writeResponse_fields c code data
  unfold conn.writeModification
  split
  · split <;> simp_all
  · simp_all

theorem modify_fields (c : conn) (mod : Modification) :
    (c.modify mod).input = c.input ∧ (c.modify mod).macros = c.macros ∧
      (c.modify mod).macrosFor = c.macrosFor ∧ (c.modify mod).headers = c.headers ∧
      (c.modify mod).body = c.body := by
  cases mod <;> exact writeModification_fields _ _ _

theorem foldl_modify_fields (mods : List Modification) (c : conn) :
    (mods.foldl conn.modify c).input = c.input ∧ (mods.foldl conn.modify c).macros = c.macros ∧
      (mods.foldl conn.modify c).macrosFor = c.macrosFor ∧
      (mods.foldl conn.modify c).headers = c.headers ∧
      (mods.foldl conn.modify c).body = c.body := by
  induction mods generalizing c with
  | nil => simp
  | cons mod mods ih =>
    have h1 := modify_fields c mod
    have h2 := ih (c.modify mod)
    simp only [List.foldl_cons]
    refine ⟨h2.1.trans h1.1, h2.2.1.trans h1.2.1, h2.2.2.1.trans h1.2.2.1,
      h2.2.2.2.1.trans h1.2.2.2.1, h2.2.2.2.2.trans h1.2.2.2.2⟩

theorem dispatch_input {σ : Type} (milter : Milter σ) (s : Session σ) (command : Byte)
    (data : Str) : (conn.dispatch milter s command data).session.c.input = s.c.input := by
  have hf := foldl_modify_fields
  unfold conn.dispatch
  split
  all_goals try simp only []
  all_goals repeat' split
  all_goals simp [respond_session, writeResponse_fields, session_loop, session_ret, hf]

theorem dispatch_macros {σ : Type} (milter : Milter σ) (s : Session σ) (command : Byte)
    (data : Str) (hc : command ≠ 68) :
    (conn.dispatch milter s command data).session.c.macros = s.c.macros ∧
      (conn.dispatch milter s command data).session.c.macrosFor = s.c.macrosFor := by
  have hf := foldl_modify_fields
  unfold conn.dispatch
  split
  all_goals try simp only []
  all_goals repeat' split
  all_goals simp_all [respond_session, writeResponse_fields, session_loop, session_ret, hf]

theorem dispatch_define {σ : Type} (milter : Milter σ) (s s' : Session σ) (data : Str)
    (h : conn.dispatch milter s 68 data = .loop s') :
    s'.c.macros = defineMacros (splitCStrings (data.drop 1)) [] ∧
      s'.c.macrosFor = data.getD 0 0 := by
  simp only [conn.dispatch] at h
  split at h
  · cases h
  · cases h
    simp

theorem dispatch_calls {σ : Type} (milter : Milter σ) (s : Session σ) (command : Byte)
    (data : Str) :
    ∀ call ∈ (conn.dispatch milter s command data).newCalls s, ∀ mac,
      call.macros? = some mac → mac = s.c.macros := by
  have hf := foldl_modify_fields
  unfold conn.dispatch Step.newCalls
  split
  all_goals try simp only []
  all_goals repeat' split
  all_goals simp_all [respond_session, writeResponse_fields, session_loop, session_ret, hf,
    Call.macros?]

theorem iteration_frame {σ : Type} (milter : Milter σ) (s : Session σ) (p rest : Str)
    (hlen : p.length < 2 ^ 32) (hin : s.c.input = frame p ++ rest) :
    conn.iteration milter s = conn.handle milter { s with c := { s.c with input := rest } } p := by
  simp [conn.iteration, readPacket_frame s.c p rest hlen hin]

/-- The macros a command with tag `t` finds after the macro-scope rule. -/
theorem scopeMacros_macros (c : conn) (t : Byte) :
    (c.scopeMacros t).macros = (if t = c.macrosFor then c.macros else []) ∧
      (c.scopeMacros t).macrosFor = c.macrosFor ∧ (c.scopeMacros t).input = c.input := by
  unfold conn.scopeMacros
  by_cases h : t = c.macrosFor <;> simp [h]

theorem handle_input {σ : Type} (milter : Milter σ) (s : Session σ) (p : Str) :
    (conn.handle milter s p).session.c.input = s.c.input := by
  unfold conn.handle
  split
  · rfl
  · simp only [dispatch_input, scopeMacros_macros]

theorem handle_calls {σ : Type} (milter : Milter σ) (s : Session σ) (p : Str) :
    ∀ call ∈ (conn.handle milter s p).newCalls s, ∀ mac, call.macros? = some mac →
      mac = (if p.getD 0 0 = s.c.macrosFor then s.c.macros else []) := by
  unfold conn.handle
  split
  · simp [Step.newCalls, session_ret]
  · intro call hcall mac hmac
    have := dispatch_calls milter { s with c := s.c.scopeMacros (p.getD 0 0) } (p.getD 0 0)
      (p.drop 1) call hcall mac hmac
    simpa [scopeMacros_macros] using this

/-- The macro state after a command that lets the loop go on, as the next command with
tag `t` finds it. -/
theorem handle_scope {σ : Type} (milter : Milter σ) (s s' : Session σ) (p : Str)
    (h : conn.handle milter s p = .loop s') (t : Byte) :
    (if t = s'.c.macrosFor then s'.c.macros else []) =
      if p.getD 0 0 = 68 then
        if p.getD 1 0 = t then defineMacros (splitCStrings (p.drop 2)) [] else []
      else if p.getD 0 0 = t then (if t = s.c.macrosFor then s.c.macros else [])
      else [] := by
  unfold conn.handle at h
  split at h
  · cases h
  · by_cases hD : p.getD 0 0 = 68
    · rw [hD] at h
      obtain ⟨h1, h2⟩ := dispatch_define milter _ s' _ h
      have hd : (p.drop 1).getD 0 0 = p.getD 1 0 := by
        cases p with
        | nil => rfl
        | cons a as => cases as <;> rfl
      have hdd : (p.drop 1).drop 1 = p.drop 2 := by simp
      simp only [hD, if_true, h1, h2, hd, hdd]
      generalize p.getD 1 0 = u
      by_cases ht : t = u
      · rw [if_pos ht, if_pos ht.symm]
      · rw [if_neg ht, if_neg (fun e => ht e.symm)]
    · have hm := dispatch_macros milter { s with c := s.c.scopeMacros (p.getD 0 0) } (p.getD 0 0)
        (p.drop 1) hD
      rw [h] at hm
      simp only [session_loop, scopeMacros_macros] at hm
      simp only [hD, if_false, hm.1, hm.2]
      generalize p.getD 0 0 = u
      by_cases h1 : u = t
      · subst h1
        by_cases h2 : u = s.c.macrosFor
        · simp only [if_pos h2, if_true]
        · simp only [if_neg h2, if_true]
      · by_cases h2 : t = s.c.macrosFor
        · have : ¬ (u = s.c.macrosFor) := fun e => h1 (e.trans h2.symm)
          simp only [if_neg h1, if_pos h2, if_neg this]
        · simp only [if_neg h1, if_neg h2]

/-- After the packets `qs` have been read and processed with the loop going on, the
input is what followed them and the macro state is the one the history determines. -/
theorem runLoop_frames_scope {σ : Type} (milter : Milter σ) (qs : List Str) :
    ∀ (older : List Str) (tail : Str) (s s' : Session σ),
      (∀ q ∈ qs, q.length < 2 ^ 32) →
      s.c.input = frames qs ++ tail →
      (∀ t, (if t = s.c.macrosFor then s.c.macros else []) = macrosInScope older t) →
      conn.runLoop milter qs.length s = .loop s' →
      s'.c.input = tail ∧
        ∀ t, (if t = s'.c.macrosFor then s'.c.macros else []) =
          macrosInScope (qs.reverse ++ older) t := by
  induction qs with
  | nil =>
    intro older tail s s' _ hin hinv hrun
    simp only [List.length_nil, conn.runLoop] at hrun
    cases hrun
    exact ⟨by simpa [frames] using hin, by simpa using hinv⟩
  | cons q qs ih =>
    intro older tail s s' hlen hin hinv hrun
    have hq : q.length < 2 ^ 32 := hlen q (by simp)
    have hin' : s.c.input = frame q ++ (frames qs ++ tail) := by
      simp [hin, frames, List.append_assoc]
    have hit := iteration_frame milter s q (frames qs ++ tail) hq hin'
    simp only [List.length_cons, conn.runLoop, hit] at hrun
    cases hstep : conn.handle milter { s with c := { s.c with input := frames qs ++ tail } } q with
    | ret s1 e => simp [hstep] at hrun
    | loop s1 =>
      simp only [hstep] at hrun
      have hin1 : s1.c.input = frames qs ++ tail := by
        have := handle_input milter { s with c := { s.c with input := frames qs ++ tail } } q
        simpa [hstep, session_loop] using this
      have hinv1 : ∀ t, (if t = s1.c.macrosFor then s1.c.macros else []) =
          macrosInScope (q :: older) t := by
        intro t
        have := handle_scope milter _ s1 q hstep t
        simp only [this, macrosInScope]
        have hi := hinv t
        simp only [] at hi ⊢
        rw [hi]
      have := ih (q :: older) tail s1 s' (fun x hx => hlen x (by simp [hx])) hin1 hinv1 hrun
      simpa [List.append_assoc] using this

/-! ## Theorems: mutations and responses -/

theorem modify_eq_writeModification (c : conn) (mod : Modification) :
    c.modify mod = c.writeModification mod.packet.1 mod.packet.2 := by
  cases mod <;> rfl

theorem packetBytes_length (code : Byte) (data : Str) :
    (packetBytes code data).length = data.length + 5 := by
  simp [packetBytes, putUint32]

theorem writeResponse_packet (c : conn) (code : Byte) (data : Str) (hbw : c.bwErr = none)
    (hq : ∀ q, c.quota = some q → (packetBytes code data).length ≤ q) :
    c.writeResponse code data =
      ({ c with
          output := c.output ++ packetBytes code data,
          quota := c.quota.map (· - (packetBytes code data).length) }, none) := by
  have hq' : ∀ q, c.quota = some q → data.length + 5 ≤ q := fun q h => by
    have := hq q h
    rwa [packetBytes_length] at this
  obtain ⟨h1, h2⟩ := writeResponse_ok c code data hbw hq'
  rw [Prod.ext_iff]
  exact ⟨by rw [h2, packetBytes_length]; rfl, h1⟩

theorem foldl_modify_ok (mods : List Modification) :
    ∀ c : conn, c.bwErr = none → c.err = none →
      (∀ q, c.quota = some q → (modificationBytes mods).length ≤ q) →
      mods.foldl conn.modify c =
        { c with
          output := c.output ++ modificationBytes mods,
          quota := c.quota.map (· - (modificationBytes mods).length) } := by
  induction mods with
  | nil =>
    intro c _ _ _
    cases c with
    | mk i o q b e ms mf h bd => cases q <;> simp [modificationBytes]
  | cons mod mods ih =>
    intro c hbw herr hq
    have hq1 : ∀ q, c.quota = some q → (packetBytes mod.packet.1 mod.packet.2).length ≤ q := by
      intro q h
      have := hq q h
      simp only [modificationBytes, List.length_append] at this
      omega
    have hw := writeResponse_packet c mod.packet.1 mod.packet.2 hbw hq1
    have hm : c.modify mod =
        { c with
          output := c.output ++ packetBytes mod.packet.1 mod.packet.2,
          quota := c.quota.map (· - (packetBytes mod.packet.1 mod.packet.2).length) } := by
      rw [modify_eq_writeModification, conn.writeModification, hw]
    rw [List.foldl_cons, hm, ih { c with
          output := c.output ++ packetBytes mod.packet.1 mod.packet.2,
          quota := c.quota.map (· - (packetBytes mod.packet.1 mod.packet.2).length) } hbw herr]
    · cases c with
      | mk i o q b e ms mf h bd =>
        cases q with
        | none => simp [modificationBytes]
        | some q => simp [modificationBytes]; omega
    · intro q h
      cases hc : c.quota with
      | none => simp [hc] at h
      | some q0 =>
        have := hq q0 hc
        simp only [hc, Option.map_some', Option.some.injEq] at h
        simp only [modificationBytes, List.length_append] at this
        omega

theorem scopeMacros_fields (c : conn) (t : Byte) :
    (c.scopeMacros t).output = c.output ∧ (c.scopeMacros t).quota = c.quota ∧
      (c.scopeMacros t).bwErr = c.bwErr ∧ (c.scopeMacros t).err = c.err ∧
      (c.scopeMacros t).headers = c.headers ∧ (c.scopeMacros t).body = c.body := by
  unfold conn.scopeMacros
  split <;> simp

theorem respond_ok {σ : Type} (s : Session σ) (resp : Response) (hbw : s.c.bwErr = none)
    (hq : ∀ q, s.c.quota = some q → (packetBytes resp.code resp.data).length ≤ q) :
    conn.respond s resp =
      .loop { s with
        c := { s.c with
          output := s.c.output ++ packetBytes resp.code resp.data,
          quota := s.c.quota.map (· - (packetBytes resp.code resp.data).length) } } := by
  simp [conn.respond, writeResponse_packet s.c resp.code resp.data hbw hq]

/-- C4. Mutation ordering: for every End-of-body command whose `Body` callback issues
the `Modifier` calls `m1..mk` in that order and returns the response `r`, with all
writes succeeding, the bytes written to the connection while the command is processed
are exactly the packets of `m1`, ..., `mk` followed by the packet of `r`, `Body` is the
only callback invoked, and the loop goes on. In particular `AddHeader` then
`ChangeHeader` then returning `Accept` yields an `'h'` packet, an `'m'` packet, then an
`'a'` packet. -/
theorem mutation_ordering {σ : Type} (milter : Milter σ) (s : Session σ) (data : Str)
    (hbw : s.c.bwErr = none) (herr : s.c.err = none)
    (hq : ∀ q, s.c.quota = some q →
      (modificationBytes (milter.Body s.m s.c.body).1 ++
        packetBytes (milter.Body s.m s.c.body).2.1.code
          (milter.Body s.m s.c.body).2.1.data).length ≤ q) :
    (conn.handle milter s (69 :: data)).continues = true ∧
      (conn.handle milter s (69 :: data)).written s =
        modificationBytes (milter.Body s.m s.c.body).1 ++
          packetBytes (milter.Body s.m s.c.body).2.1.code (milter.Body s.m s.c.body).2.1.data ∧
      (conn.handle milter s (69 :: data)).newCalls s = [Call.Body s.c.body] ∧
      (conn.handle headerMilter (Session.start [] none ()) [69]).written
          (Session.start [] none ()) =
        packetBytes 104 (ascii "X-Seen" ++ [0] ++ ascii "yes" ++ [0]) ++
          packetBytes 109 ([0, 0, 0, 1] ++ ascii "Subject" ++ [0] ++ [0]) ++
          packetBytes 97 [] := by
  refine ⟨?_, ?_, ?_, by decide⟩
  all_goals
    obtain ⟨h1, h2, h3, h4, h5, h6⟩ := scopeMacros_fields s.c 69
    have hq1 : ∀ q, (s.c.scopeMacros 69).quota = some q →
        (modificationBytes (milter.Body s.m s.c.body).1).length ≤ q := by
      intro q h
      rw [h2] at h
      have := hq q h
      simp only [List.length_append] at this
      omega
    have hf := foldl_modify_ok (milter.Body s.m s.c.body).1 (s.c.scopeMacros 69)
      (h3.trans hbw) (h4.trans herr) hq1
    simp only [conn.handle, conn.dispatch, List.length_cons, Nat.add_one_ne_zero, if_false,
      List.getD_cons_zero, List.drop_succ_cons, List.drop_zero, h6, hf, h4, herr]
    rw [respond_ok]
    · simp [Step.continues, Step.written, Step.newCalls, session_loop, h1]
    · simp [h3, hbw]
    · intro q h
      cases hc : s.c.quota with
      | none => simp [h2, hc] at h
      | some q0 =>
        have := hq q0 hc
        simp only [h2, hc, Option.map_some', Option.some.injEq] at h
        simp only [List.length_append] at this
        rw [← h]
        exact Nat.le_sub_of_add_le' this

theorem mutation_ordering_witness :
    (Session.start [] (some 40) ()).c.bwErr = none ∧
      (Session.start [] (some 40) ()).c.err = none ∧
      (conn.handle headerMilter (Session.start [] (some 40) ()) (69 :: [])).continues = true ∧
      (conn.handle headerMilter (Session.start [] (some 40) ()) (69 :: [])).written
          (Session.start [] (some 40) ()) =
        modificationBytes
            (headerMilter.Body (Session.start [] (some 40) ()).m
              (Session.start [] (some 40) ()).c.body).1 ++
          packetBytes
            (headerMilter.Body (Session.start [] (some 40) ()).m
              (Session.start [] (some 40) ()).c.body).2.1.code
            (headerMilter.Body (Session.start [] (some 40) ()).m
              (Session.start [] (some 40) ()).c.body).2.1.data :=
  ⟨rfl, rfl,
    (mutation_ordering headerMilter (Session.start [] (some 40) ()) [] rfl rfl
      (by intro q h; cases h; decide)).1,
    (mutation_ordering headerMilter (Session.start [] (some 40) ()) [] rfl rfl
      (by intro q h; cases h; decide)).2.1⟩

/-! ## Theorems: header and body accumulation -/

theorem GoMap_lookup_set {α : Type} (m : GoMap α) (k : Str) (v : α) (key : Str) :
    GoMap.lookup (GoMap.set m k v) key = if k = key then some v else GoMap.lookup m key := by
  induction m with
  | nil => simp [GoMap.set, GoMap.lookup]
  | cons kv m ih =>
    obtain ⟨k', v'⟩ := kv
    by_cases h1 : k' = k
    · subst h1
      by_cases h2 : k' = key <;> simp [GoMap.set, GoMap.lookup, h2]
    · by_cases h2 : k' = key
      · have h3 : ¬ k = key := fun e => h1 (h2.trans e.symm)
        have h4 : ¬ key = k := fun e => h3 e.symm
        subst h2
        simp [GoMap.set, GoMap.lookup, h3, h4]
      · simp [GoMap.set, GoMap.lookup, h1, h2, ih]

theorem MIMEHeader_Add_lookup (h : MIMEHeader) (name value key : Str) :
    (GoMap.lookup (MIMEHeader.Add h name value) key).getD [] =
      if CanonicalMIMEHeaderKey name = key then (GoMap.lookup h key).getD [] ++ [value]
      else (GoMap.lookup h key).getD [] := by
  simp only [MIMEHeader.Add, GoMap_lookup_set]
  by_cases hk : CanonicalMIMEHeaderKey name = key
  · subst hk
    simp
  · simp [hk]

theorem stringsSplit_no_sep (a : Str) (h : (0 : Byte) ∉ a) : stringsSplit a 0 = [a] := by
  induction a with
  | nil => rfl
  | cons x xs ih =>
    have hx : x ≠ 0 := fun e => h (by simp [e])
    have hxs : (0 : Byte) ∉ xs := fun e => h (by simp [e])
    simp [stringsSplit, hx, ih hxs]

theorem stringsSplit_append (a b : Str) (h : (0 : Byte) ∉ a) :
    stringsSplit (a ++ 0 :: b) 0 = a :: stringsSplit b 0 := by
  induction a with
  | nil => simp [stringsSplit]
  | cons x xs ih =>
    have hx : x ≠ 0 := fun e => h (by simp [e])
    have hxs : (0 : Byte) ∉ xs := fun e => h (by simp [e])
    simp [stringsSplit, hx, ih hxs]

theorem splitCStrings_pair (name value : Str) (hn : (0 : Byte) ∉ name) (hv : (0 : Byte) ∉ value) :
    splitCStrings (name ++ [0] ++ value ++ [0]) = [name, value] := by
  have hl : (name ++ [0] ++ value ++ [0]).length - 1 = (name ++ [0] ++ value).length := by simp
  have hne : ¬ (name ++ [0] ++ value ++ [0]).length = 0 := by simp
  have hlast : (name ++ [0] ++ value ++ [0]).getD ((name ++ [0] ++ value ++ [0]).length - 1) 0 = 0 := by
    rw [hl, List.getD_append_right _ _ _ _ (le_refl _)]
    simp
  have htake : (name ++ [0] ++ value ++ [0]).take ((name ++ [0] ++ value ++ [0]).length - 1) =
      name ++ [0] ++ value := by
    rw [hl, List.take_left']
    rfl
  unfold splitCStrings
  rw [if_neg hne]
  simp only [hlast, if_true, htake]
  have : name ++ [0] ++ value = name ++ 0 :: value := by simp
  rw [this, stringsSplit_append name value hn, stringsSplit_no_sep value hv]

theorem runLoop_succ_frame {σ : Type} (milter : Milter σ) (n : Nat) (s : Session σ)
    (p rest : Str) (hlen : p.length < 2 ^ 32) (hin : s.c.input = frame p ++ rest) :
    conn.runLoop milter (n + 1) s =
      match conn.handle milter { s with c := { s.c with input := rest } } p with
      | .ret s' err => .ret s' err
      | .loop s' => conn.runLoop milter n s' := by
  simp only [conn.runLoop, iteration_frame milter s p rest hlen hin]

theorem handle_header {σ : Type} (milter : Milter σ) (s : Session σ) (name value : Str)
    (hn : (0 : Byte) ∉ name) (hv : (0 : Byte) ∉ value) :
    (conn.handle milter s (headerPacket name value)).session.c.headers =
        MIMEHeader.Add s.c.headers name value ∧
      (conn.handle milter s (headerPacket name value)).session.calls = s.calls ∧
      (conn.handle milter s (headerPacket name value)).session.m = s.m := by
  have hsplit := splitCStrings_pair name value hn hv
  have hp : headerPacket name value = 76 :: (name ++ [0] ++ value ++ [0]) := by
    simp [headerPacket]
  simp only [hp, conn.handle, conn.dispatch, List.length_cons, Nat.add_one_ne_zero, if_false,
    List.getD_cons_zero, List.drop_succ_cons, List.drop_zero, hsplit]
  simp [respond_session, writeResponse_fields, scopeMacros_fields]

theorem handle_endOfHeaders {σ : Type} (milter : Milter σ) (s : Session σ) (data : Str) :
    (conn.handle milter s (78 :: data)).newCalls s = [Call.Headers s.c.headers] ∧
      (conn.handle milter s (78 :: data)).session.c.headers = [] := by
  simp only [conn.handle, conn.dispatch, List.length_cons, Nat.add_one_ne_zero, if_false,
    List.getD_cons_zero, List.drop_succ_cons, List.drop_zero]
  simp [Step.newCalls, respond_session, writeResponse_fields, scopeMacros_fields]

theorem dispatch_headers_other {σ : Type} (milter : Milter σ) (s : Session σ) (command : Byte)
    (data : Str) (h1 : command ≠ 76) (h2 : command ≠ 65) (h3 : command ≠ 78) :
    (conn.dispatch milter s command data).session.c.headers = s.c.headers := by
  have hf := foldl_modify_fields
  unfold conn.dispatch
  split
  all_goals try simp only []
  all_goals repeat' split
  all_goals simp_all [respond_session, writeResponse_fields, session_loop, session_ret, hf]

/-- A command other than Header, Abort and End-of-headers leaves the header accumulator
as it was. -/
theorem handle_headers_other {σ : Type} (milter : Milter σ) (s : Session σ) (p : Str)
    (h1 : p.getD 0 0 ≠ 76) (h2 : p.getD 0 0 ≠ 65) (h3 : p.getD 0 0 ≠ 78) :
    (conn.handle milter s p).session.c.headers = s.c.headers := by
  unfold conn.handle
  split
  · rfl
  · simp only []
    rw [dispatch_headers_other milter _ _ _ h1 h2 h3]
    exact (scopeMacros_fields s.c _).2.2.2.2.1

/-- After the commands `cmds` have been read and processed with the loop going on, the
accumulator holds under each key the values it held followed by the values of the
Header commands whose name has that canonical form, in the order received. -/
theorem runLoop_headers {σ : Type} (milter : Milter σ) (cmds : List MessageCommand) :
    ∀ (tail : Str) (s s' : Session σ),
      (∀ c ∈ cmds, c.WellFormed ∧ c.packet.length < 2 ^ 32) →
      s.c.input = frames (cmds.map MessageCommand.packet) ++ tail →
      conn.runLoop milter cmds.length s = .loop s' →
      s'.c.input = tail ∧
        ∀ key, (GoMap.lookup s'.c.headers key).getD [] =
          (GoMap.lookup s.c.headers key).getD [] ++ hdrsOf (headersOf cmds) key := by
  induction cmds with
  | nil =>
    intro tail s s' _ hin hrun
    simp only [List.length_nil, conn.runLoop] at hrun
    cases hrun
    exact ⟨by simpa [frames] using hin, by simp [headersOf, hdrsOf]⟩
  | cons c cmds ih =>
    intro tail s s' hwf hin hrun
    obtain ⟨hc, hl⟩ := hwf c (by simp)
    have hin' : s.c.input = frame c.packet ++
        (frames (cmds.map MessageCommand.packet) ++ tail) := by
      simp [hin, frames, List.append_assoc]
    rw [List.length_cons, runLoop_succ_frame milter _ s _ _ hl hin'] at hrun
    have hi := handle_input milter
      { s with c := { s.c with input := frames (cmds.map MessageCommand.packet) ++ tail } }
      c.packet
    cases hstep : conn.handle milter
      { s with c := { s.c with input := frames (cmds.map MessageCommand.packet) ++ tail } }
      c.packet with
    | ret s1 e => simp [hstep] at hrun
    | loop s1 =>
      simp only [hstep] at hrun
      simp only [hstep, session_loop] at hi
      obtain ⟨h1, h3⟩ := ih tail s1 s' (fun x hx => hwf x (by simp [hx])) hi hrun
      refine ⟨h1, ?_⟩
      intro key
      cases c with
      | header name value =>
        have hh := handle_header milter
          { s with c := { s.c with input := frames (cmds.map MessageCommand.packet) ++ tail } }
          name value hc.1 hc.2
        simp only [MessageCommand.packet] at hstep
        simp only [hstep, session_loop] at hh
        rw [h3 key, hh.1, MIMEHeader_Add_lookup]
        by_cases hk : CanonicalMIMEHeaderKey name = key
        · simp [hk, headersOf, hdrsOf, List.filter_cons]
        · simp [hk, headersOf, hdrsOf, List.filter_cons]
      | other p =>
        have hh := handle_headers_other milter
          { s with c := { s.c with input := frames (cmds.map MessageCommand.packet) ++ tail } }
          p hc.1 hc.2.1 hc.2.2
        simp only [MessageCommand.packet] at hstep
        simp only [hstep, session_loop] at hh
        rw [h3 key, hh]
        simp [headersOf]

theorem handle_endOfBody {σ : Type} (milter : Milter σ) (s : Session σ) (data : Str) :
    (conn.handle milter s (69 :: data)).newCalls s = [Call.Body s.c.body] := by
  simp only [conn.handle, conn.dispatch, List.length_cons, Nat.add_one_ne_zero, if_false,
    List.getD_cons_zero, List.drop_succ_cons, List.drop_zero]
  split <;>
    simp [Step.newCalls, respond_session, writeResponse_fields, scopeMacros_fields, session_ret]

/-- C6. Abort resets state: for every session state, processing an Abort command leaves
the header accumulator and the body accumulator empty, writes nothing, invokes no
callback, and lets the loop go on; an End-of-headers command processed next delivers an
empty header collection and an End-of-body command processed next delivers an empty
body. For example Header, Body-chunk, Abort, End-of-headers, End-of-body delivers an
empty collection and an empty body. -/
theorem abort_resets_state {σ : Type} (milter : Milter σ) (s : Session σ) (data : Str) :
    (conn.handle milter s (65 :: data)).continues = true ∧
      (conn.handle milter s (65 :: data)).session.c.headers = [] ∧
      (conn.handle milter s (65 :: data)).session.c.body = [] ∧
      (conn.handle milter s (65 :: data)).session.c.output = s.c.output ∧
      (conn.handle milter s (65 :: data)).session.calls = s.calls ∧
      (∀ d, (conn.handle milter (conn.handle milter s (65 :: data)).session (78 :: d)).newCalls
          (conn.handle milter s (65 :: data)).session = [Call.Headers []]) ∧
      (∀ d, (conn.handle milter (conn.handle milter s (65 :: data)).session (69 :: d)).newCalls
          (conn.handle milter s (65 :: data)).session = [Call.Body []]) ∧
      (conn.runLoop continueMilter 5
        (Session.start
          (frames [headerPacket (ascii "Subject") (ascii "hi"), 66 :: ascii "text", [65], [78],
            [69]]) none ())).session.calls = [Call.Headers [], Call.Body []] := by
  have h : conn.handle milter s (65 :: data) =
      .loop { s with c := { s.c.scopeMacros 65 with headers := [], body := [] } } := by
    simp [conn.handle, conn.dispatch]
  refine ⟨by simp [h, Step.continues], by simp [h, session_loop], by simp [h, session_loop],
    by simp [h, session_loop, scopeMacros_fields], by simp [h, session_loop], ?_, ?_, by decide⟩
  · intro d
    rw [h, session_loop]
    exact (handle_endOfHeaders milter _ d).1
  · intro d
    rw [h, session_loop]
    exact handle_endOfBody milter _ d

/-! ## Theorems: addresses -/

/-- C7, the code at the failing input: for the MailFrom and RcptTo payload `<>` (the
null reverse-path), whose first token has length 2, begins with `<` and ends with `>`,
`From` and `To` are passed `<>` with its brackets, not the empty address. -/
theorem empty_brackets_not_stripped :
    stripBrackets (ascii "<>") (ascii "<>") = ascii "<>" ∧
      splitCStrings (ascii "<>" ++ [0]) = [ascii "<>"] ∧
      (conn.handle continueMilter (Session.start [] none ()) (77 :: (ascii "<>" ++ [0]))).newCalls
          (Session.start [] none ()) = [Call.From (ascii "<>") []] ∧
      (conn.handle continueMilter (Session.start [] none ()) (82 :: (ascii "<>" ++ [0]))).newCalls
          (Session.start [] none ()) = [Call.To (ascii "<>") []] := by
  decide

theorem getD_zero_eq_head? (l : Str) (h : 0 < l.length) : l.head? = some (l.getD 0 0) := by
  cases l with
  | nil => simp at h
  | cons a as => rfl

theorem getD_last_eq_getLast? (l : Str) (h : 0 < l.length) :
    l.getLast? = some (l.getD (l.length - 1) 0) := by
  rw [List.getLast?_eq_getElem?, List.getD_eq_getElem?_getD]
  have : l.length - 1 < l.length := by omega
  simp [List.getElem?_eq_getElem this]

theorem stripBrackets_unchanged (tok : Str) (o c : Byte)
    (h : ¬ (tok.head? = some o ∧ tok.getLast? = some c)) : stripBrackets tok [o, c] = tok := by
  unfold stripBrackets
  split
  · rename_i hc
    exfalso
    apply h
    have hpos : 0 < tok.length := by omega
    rw [getD_zero_eq_head? tok hpos, getD_last_eq_getLast? tok hpos]
    simp only [List.getD_cons_zero, List.getD_cons_succ] at hc
    exact ⟨by rw [hc.2.1], by rw [hc.2.2]⟩
  · rfl

theorem cstrings_ne_nil (l : List Str) (hl : l ≠ []) : cstrings l ≠ [] := by
  cases l with
  | nil => exact absurd rfl hl
  | cons a as => simp [cstrings]

theorem cstrings_getLast? (l : List Str) (hl : l ≠ []) : (cstrings l).getLast? = some 0 := by
  induction l with
  | nil => exact absurd rfl hl
  | cons a as ih =>
    cases as with
    | nil => simp [cstrings]
    | cons b bs =>
      have h := ih (by simp)
      have hne := cstrings_ne_nil (b :: bs) (by simp)
      rw [cstrings, List.getLast?_append, List.getLast?_cons]
      cases hc : cstrings (b :: bs) with
      | nil => exact absurd hc hne
      | cons x xs =>
        rw [hc] at h
        simp [h]

theorem stringsSplit_dropLast_cstrings (l : List Str) (hl : l ≠ [])
    (h0 : ∀ s ∈ l, (0 : Byte) ∉ s) : stringsSplit (cstrings l).dropLast 0 = l := by
  induction l with
  | nil => exact absurd rfl hl
  | cons a as ih =>
    have ha : (0 : Byte) ∉ a := h0 a (by simp)
    cases as with
    | nil =>
      have : (cstrings [a]).dropLast = a := by
        simp [cstrings]
      rw [this, stringsSplit_no_sep a ha]
    | cons b bs =>
      have hne := cstrings_ne_nil (b :: bs) (by simp)
      have hcons : (0 :: cstrings (b :: bs)) ≠ [] := by simp
      have : (cstrings (a :: b :: bs)).dropLast = a ++ 0 :: (cstrings (b :: bs)).dropLast := by
        rw [cstrings, List.dropLast_append_of_ne_nil _ hcons]
        cases hc : cstrings (b :: bs) with
        | nil => exact absurd hc hne
        | cons x xs => rfl
      rw [this, stringsSplit_append a _ ha, ih (by simp) (fun s hs => h0 s (by simp [hs]))]

/-- The function `splitCStrings` inverts the NUL-terminated concatenation of a non-empty
list of strings without zero bytes, and maps the empty input to the empty list. -/
theorem splitCStrings_cstrings (l : List Str) (h0 : ∀ s ∈ l, (0 : Byte) ∉ s) :
    splitCStrings (cstrings l) = l := by
  by_cases hl : l = []
  · subst hl
    rfl
  · have hne := cstrings_ne_nil l hl
    have hpos : 0 < (cstrings l).length := List.length_pos.mpr hne
    have hlast : (cstrings l).getD ((cstrings l).length - 1) 0 = 0 := by
      have h1 := getD_last_eq_getLast? (cstrings l) hpos
      rw [cstrings_getLast? l hl] at h1
      exact (Option.some.inj h1).symm
    unfold splitCStrings
    rw [if_neg (by omega)]
    simp only [hlast, if_true, ← List.dropLast_eq_take]
    exact stringsSplit_dropLast_cstrings l hl h0

theorem alternating_no_zero (pairs : List (Str × Str))
    (h : ∀ nv ∈ pairs, (0 : Byte) ∉ nv.1 ∧ (0 : Byte) ∉ nv.2) :
    ∀ s ∈ alternating pairs, (0 : Byte) ∉ s := by
  induction pairs with
  | nil => simp [alternating]
  | cons nv nvs ih =>
    intro s hs
    simp only [alternating, List.mem_cons] at hs
    rcases hs with hs | hs | hs
    · rw [hs]; exact (h nv (by simp)).1
    · rw [hs]; exact (h nv (by simp)).2
    · exact ih (fun x hx => h x (by simp [hx])) s hs

/-- The macros `defineMacros` builds from alternating names and values: under each name
the value of the last pair whose name, stripped of its braces, is that name. -/
theorem defineMacros_lookup (pairs : List (Str × Str)) :
    ∀ (m : Macros) (key : Str),
      GoMap.lookup (defineMacros (alternating pairs) m) key =
        match pairs.reverse.find? (fun nv => stripBrackets nv.1 [123, 125] = key) with
        | some nv => some nv.2
        | none => GoMap.lookup m key := by
  induction pairs with
  | nil => intro m key; simp [alternating, defineMacros]
  | cons nv nvs ih =>
    intro m key
    simp only [alternating, defineMacros, ih, List.reverse_cons, List.find?_append]
    cases hf : nvs.reverse.find? (fun nv => stripBrackets nv.1 [123, 125] = key) with
    | some x => simp
    | none =>
      by_cases hk : stripBrackets nv.1 [123, 125] = key
      · simp [hk, GoMap_lookup_set]
      · simp [hk, GoMap_lookup_set]

/-- Macro scoping as the code implements it: on a fresh connection, after any sequence
`history` of command packets has been read and processed, every call of a `Milter`
method that takes macros, made while the next command (tag `t`, the first byte of `p`)
is processed, is passed exactly the macros of the most recent Define-macros packet if
that packet declared the target `t` and every command processed since had the tag `t`,
and the empty set otherwise. The macros of a Define-macros packet are its name/value
pairs with each name as `stripBrackets` returns it: a name looks up the value of the
last pair whose name `stripBrackets` maps to it. -/
theorem macro_scoping {σ : Type} (milter : Milter σ) (m0 : σ) (quota : Option Nat)
    (history : List Str) (p rest : Str) (s : Session σ)
    (hh : ∀ q ∈ history, q.length < 2 ^ 32) (hp : p.length < 2 ^ 32)
    (hrun : conn.runLoop milter history.length
      (Session.start (frames history ++ (frame p ++ rest)) quota m0) = .loop s) :
    (∀ call ∈ (conn.iteration milter s).newCalls s, ∀ mac, call.macros? = some mac →
        mac = macrosInScope history.reverse (p.getD 0 0)) ∧
      (∀ (t : Byte) (pairs : List (Str × Str)) (older : List Str) (key : Str),
        (∀ nv ∈ pairs, (0 : Byte) ∉ nv.1 ∧ (0 : Byte) ∉ nv.2) →
        GoMap.lookup (macrosInScope (definePacket t pairs :: older) t) key =
          (pairs.reverse.find? (fun nv => stripBrackets nv.1 [123, 125] = key)).map Prod.snd) ∧
      (conn.runLoop continueMilter 3
          (Session.start (frames [defineForHelo, heloPacket, connectPacket]) none ())).session.calls =
        [Call.Helo (ascii "mx") [(ascii "x", ascii "1")],
          Call.Connect (ascii "mx") (ascii "tcp4") (ascii "192.0.2.1:25") []] := by
  refine ⟨?_, ?_, by decide⟩
  · obtain ⟨hin, hinv⟩ := runLoop_frames_scope milter history [] (frame p ++ rest) _ s hh rfl
      (fun t => by simp [Session.start, newConn, macrosInScope]) hrun
    intro call hcall mac hmac
    rw [iteration_frame milter s p rest hp hin] at hcall
    have := handle_calls milter { s with c := { s.c with input := rest } } p call hcall mac hmac
    rw [this]
    simpa using hinv (p.getD 0 0)
  · intro t pairs older key hwf
    have hs := splitCStrings_cstrings (alternating pairs) (alternating_no_zero pairs hwf)
    have hd : (definePacket t pairs).drop 2 = cstrings (alternating pairs) := rfl
    have h0 : (definePacket t pairs).getD 0 0 = 68 := rfl
    have h1 : (definePacket t pairs).getD 1 0 = t := rfl
    simp only [macrosInScope, h0, h1, hd, hs, if_true, defineMacros_lookup, GoMap.lookup]
    cases pairs.reverse.find? (fun nv => stripBrackets nv.1 [123, 125] = key) <;> rfl

theorem macro_scoping_witness :
    (∀ q ∈ [defineForHelo], q.length < 2 ^ 32) ∧ heloPacket.length < 2 ^ 32 ∧
      (∀ call ∈ (conn.iteration continueMilter
          (conn.runLoop continueMilter 1
            (Session.start (frames [defineForHelo] ++ (frame heloPacket ++ [])) none ())).session).newCalls
          (conn.runLoop continueMilter 1
            (Session.start (frames [defineForHelo] ++ (frame heloPacket ++ [])) none ())).session,
        ∀ mac, call.macros? = some mac →
          mac = macrosInScope [defineForHelo].reverse (heloPacket.getD 0 0)) :=
  ⟨by decide, by decide,
    (macro_scoping continueMilter () none [defineForHelo] heloPacket []
      (conn.runLoop continueMilter 1
        (Session.start (frames [defineForHelo] ++ (frame heloPacket ++ [])) none ())).session
      (by decide) (by decide) (by rfl)).1⟩

/-- C3, the code at the failing input: after Define-macros(target `'H'`, `{}` = `v`),
whose one name is enclosed in braces, the Helo command is passed the macro under the
name `{}`, with its braces, not under the empty name; a name of three bytes, `{x}`,
is passed as `x`. The scoping is as stated: the Connect command that follows is passed
no macros. -/
theorem macro_braces_not_stripped :
    (conn.runLoop continueMilter 3
        (Session.start
          (frames [definePacket 72 [(ascii "{}", ascii "v")], heloPacket, connectPacket])
          none ())).session.calls =
        [Call.Helo (ascii "mx") [(ascii "{}", ascii "v")],
          Call.Connect (ascii "mx") (ascii "tcp4") (ascii "192.0.2.1:25") []] ∧
      definePacket 72 [(ascii "{}", ascii "v")] = [68, 72, 123, 125, 0, 118, 0] ∧
      stripBrackets (ascii "{}") (ascii "{}") = ascii "{}" ∧
      (conn.runLoop continueMilter 2
        (Session.start (frames [definePacket 72 [(ascii "{x}", ascii "v")], heloPacket])
          none ())).session.calls =
        [Call.Helo (ascii "mx") [(ascii "x", ascii "v")]] := by
  decide

/-! ## Theorems: end of stream -/

/-- C9, the code at the failing input: on the stream `00 00 00 05`, a complete length
prefix `L = 5` followed by no payload byte, `readPacket` returns `io.EOF`, the error of
a stream that ends before the length prefix, and `run` returns nil; with one payload
byte it returns `io.ErrUnexpectedEOF` and `run` returns that error. -/
theorem truncation_after_prefix_is_clean :
    (newConn [0, 0, 0, 5] none).readPacket.2 = .error .EOF ∧
      (newConn [] none).readPacket.2 = .error .EOF ∧
      (conn.run continueMilter (Session.start [0, 0, 0, 5] none ())).map Prod.snd = some none ∧
      (newConn [0, 0, 0, 5, 72] none).readPacket.2 = .error .ErrUnexpectedEOF ∧
      (conn.run continueMilter (Session.start [0, 0, 0, 5, 72] none ())).map Prod.snd =
        some (some .ErrUnexpectedEOF) :=
  ⟨rfl, rfl, rfl, rfl, rfl⟩

/-! ## Theorems: commands without callback -/

/-- C10, as stated, fails: a Data command, a Body-chunk command, a well-formed Header
command and a command with the unrecognized tag `'Z'` each write the packet
`00 00 00 01 'c'`, a Continue response, to the connection. -/
theorem responseless_counterexample :
    (conn.handle continueMilter (Session.start [] none ()) [84]).written
        (Session.start [] none ()) = [0, 0, 0, 1, 99] ∧
      (conn.handle continueMilter (Session.start [] none ()) (66 :: ascii "text")).written
        (Session.start [] none ()) = [0, 0, 0, 1, 99] ∧
      (conn.handle continueMilter (Session.start [] none ())
          (headerPacket (ascii "Subject") (ascii "hi"))).written
        (Session.start [] none ()) = [0, 0, 0, 1, 99] ∧
      (conn.handle continueMilter (Session.start [] none ()) [90]).written
        (Session.start [] none ()) = [0, 0, 0, 1, 99] := by
  decide

theorem dispatch_unrecognized {σ : Type} (milter : Milter σ) (s : Session σ) (tag : Byte)
    (data : Str) (h : tag ∉ commandTags) :
    conn.dispatch milter s tag data = conn.respond s Continue := by
  simp only [commandTags, List.mem_cons, List.mem_singleton, not_or, List.not_mem_nil,
    not_false_eq_true, and_true] at h
  unfold conn.dispatch
  split
  all_goals first | rfl | (exfalso; simp at h)

/-- C10, amended. Commands without callback: for every session state, processing a
well-formed Header command (two tokens), a Body-chunk command, a Data command, or a
command with an unrecognized tag invokes no callback and, when the write succeeds,
writes exactly one packet to the connection, the Continue response `00 00 00 01 'c'`,
and the loop goes on with the next command. -/
theorem responseless_commands_continue {σ : Type} (milter : Milter σ) (s : Session σ)
    (tag : Byte) (data : Str) (hbw : s.c.bwErr = none) (hq : ∀ q, s.c.quota = some q → 5 ≤ q)
    (htag : tag = 84 ∨ tag = 66 ∨ (tag = 76 ∧ (splitCStrings data).length = 2) ∨
      tag ∉ commandTags) :
    (conn.handle milter s (tag :: data)).continues = true ∧
      (conn.handle milter s (tag :: data)).written s = [0, 0, 0, 1, 99] ∧
      (conn.handle milter s (tag :: data)).newCalls s = [] := by
  obtain ⟨h1, h2, h3, _, _, _⟩ := scopeMacros_fields s.c tag
  have hpk : packetBytes Continue.code Continue.data = [0, 0, 0, 1, 99] := by decide
  have key : ∀ s1 : Session σ, s1.c.output = s.c.output → s1.c.quota = s.c.quota →
      s1.c.bwErr = s.c.bwErr → s1.calls = s.calls →
      (conn.respond s1 Continue).continues = true ∧
        (conn.respond s1 Continue).written s = [0, 0, 0, 1, 99] ∧
        (conn.respond s1 Continue).newCalls s = [] := by
    intro s1 ho hqq hb hc
    rw [respond_ok s1 Continue (hb.trans hbw)
      (by intro q hq1; rw [hpk]; exact hq q (hqq ▸ hq1))]
    simp [Step.continues, Step.written, Step.newCalls, session_loop, ho, hc, hpk]
  simp only [conn.handle, List.length_cons, Nat.add_one_ne_zero, if_false,
    List.getD_cons_zero, List.drop_succ_cons, List.drop_zero]
  rcases htag with h | h | ⟨h, hw⟩ | h
  · subst h
    simp only [conn.dispatch]
    exact key _ h1 h2 h3 rfl
  · subst h
    simp only [conn.dispatch]
    exact key _ h1 h2 h3 rfl
  · subst h
    simp only [conn.dispatch, hw, ne_eq, not_true_eq_false, if_false]
    exact key _ h1 h2 h3 rfl
  · rw [dispatch_unrecognized milter _ tag data h]
    exact key _ h1 h2 h3 rfl

theorem responseless_commands_continue_witness :
    (Session.start [] (some 5) ()).c.bwErr = none ∧
      (∀ q, (Session.start [] (some 5) ()).c.quota = some q → 5 ≤ q) ∧
      ((200 : Byte) = 84 ∨ (200 : Byte) = 66 ∨
        ((200 : Byte) = 76 ∧ (splitCStrings [1, 2]).length = 2) ∨ (200 : Byte) ∉ commandTags) ∧
      (conn.handle continueMilter (Session.start [] (some 5) ()) (200 :: [1, 2])).continues = true ∧
      (conn.handle continueMilter (Session.start [] (some 5) ()) (200 :: [1, 2])).written
        (Session.start [] (some 5) ()) = [0, 0, 0, 1, 99] ∧
      (conn.handle continueMilter (Session.start [] (some 5) ()) (200 :: [1, 2])).newCalls
        (Session.start [] (some 5) ()) = [] :=
  ⟨rfl, by intro q h; cases h; decide, by decide,
    responseless_commands_continue continueMilter (Session.start [] (some 5) ()) 200 [1, 2] rfl
      (by intro q h; cases h; decide) (by decide)⟩

/-! ## Theorems: termination of `run` -/

theorem ReadFull_ok_length (input : Str) (n : Nat) (d rest : Str)
    (h : ReadFull input n = (.ok d, rest)) : rest.length + n = input.length := by
  unfold ReadFull at h
  split at h
  · cases h
    omega
  · split at h
    · cases h
    · split at h
      · cases h
      · cases h
        simp
        omega

theorem readPacket_ok_length (c c' : conn) (data : Str) (h : c.readPacket = (c', .ok data)) :
    c'.input.length + 4 ≤ c.input.length := by
  unfold conn.readPacket at h
  split at h
  · cases h
  · rename_i b rest h4
    have l4 := ReadFull_ok_length _ _ _ _ h4
    simp only [] at h
    split at h
    · cases h
    · rename_i d rest' hd
      have ld := ReadFull_ok_length _ _ _ _ hd
      cases h
      simp only []
      omega

theorem iteration_consumes {σ : Type} (milter : Milter σ) (s s' : Session σ)
    (h : conn.iteration milter s = .loop s') : s'.c.input.length + 4 ≤ s.c.input.length := by
  unfold conn.iteration at h
  split at h
  · cases h
  · cases h
  · rename_i c data hr
    have hl := readPacket_ok_length _ _ _ hr
    have hi := handle_input milter { s with c := c } data
    rw [h, session_loop] at hi
    have hi' : s'.c.input = c.input := hi
    rw [hi']
    exact hl

theorem runLoop_returns {σ : Type} (milter : Milter σ) (n : Nat) :
    ∀ s : Session σ, s.c.input.length < n → (conn.runLoop milter n s).continues = false := by
  induction n with
  | zero => intro s h; omega
  | succ n ih =>
    intro s h
    simp only [conn.runLoop]
    cases hit : conn.iteration milter s with
    | ret s' e => rfl
    | loop s' =>
      have := iteration_consumes milter s s' hit
      exact ih s' (by omega)

/-- The method `run` returns on every finite input: the iterations `conn.run` allows
for are enough. -/
theorem run_returns {σ : Type} (milter : Milter σ) (s : Session σ) :
    ∃ s' err, conn.run milter s = some (s', err) := by
  have h := runLoop_returns milter (s.c.input.length + 1) s (by omega)
  unfold conn.run
  cases hr : conn.runLoop milter (s.c.input.length + 1) s with
  | ret s' e => exact ⟨s', e, rfl⟩
  | loop s' => simp [hr, Step.continues] at h

/-! ## Theorems: negotiation -/

theorem decode_options_ok (data : Str) (h : 12 ≤ data.length) :
    decode data (.ptr (.struct [.uint32, .uint32, .uint32])) =
      .ok (.ptr (.struct [.uint32 (bigEndianUint32 data), .uint32 (bigEndianUint32 (data.drop 4)),
        .uint32 (bigEndianUint32 (data.drop 8))])) := by
  have h1 : ¬ data.length < 4 := by omega
  have h2 : ¬ data.length - 4 < 4 := by omega
  have h3 : ¬ data.length - 8 < 4 := by omega
  simp [decode, decoder.decode, decoder.decodeFields, h1, h2, h3]

theorem decode_options_short (data : Str) (h : data.length < 12) :
    decode data (.ptr (.struct [.uint32, .uint32, .uint32])) = .error .errNotEnoughData := by
  by_cases h1 : data.length < 4
  · simp [decode, decoder.decode, decoder.decodeFields, h1]
  · by_cases h2 : data.length - 4 < 4
    · simp [decode, decoder.decode, decoder.decodeFields, h1, h2]
    · have h3 : data.length - 8 < 4 := by omega
      simp [decode, decoder.decode, decoder.decodeFields, h1, h2, h3]

theorem bigEndian_digits (a b c e : Nat) (ha : a < 256) (hb : b < 256) (hc : c < 256)
    (he : e < 256) :
    (a * 2 ^ 24 + b * 2 ^ 16 + c * 2 ^ 8 + e) / 2 ^ 24 % 256 = a ∧
      (a * 2 ^ 24 + b * 2 ^ 16 + c * 2 ^ 8 + e) / 2 ^ 16 % 256 = b ∧
      (a * 2 ^ 24 + b * 2 ^ 16 + c * 2 ^ 8 + e) / 2 ^ 8 % 256 = c ∧
      (a * 2 ^ 24 + b * 2 ^ 16 + c * 2 ^ 8 + e) % 256 = e ∧
      a * 2 ^ 24 + b * 2 ^ 16 + c * 2 ^ 8 + e < 2 ^ 32 := by
  refine ⟨?_, ?_, ?_, ?_, ?_⟩ <;> omega

theorem bigEndianUint32_lt (d : Str) (hb : ∀ b ∈ d, b < 256) : bigEndianUint32 d < 2 ^ 32 := by
  have g : ∀ i, d.getD i 0 < 256 := by
    intro i
    rw [List.getD_eq_getElem?_getD]
    cases hi : d[i]? with
    | none => simp
    | some x => simpa using hb x (List.getElem?_mem hi)
  exact (bigEndian_digits _ _ _ _ (g 0) (g 1) (g 2) (g 3)).2.2.2.2

theorem putUint32_bigEndianUint32 (d : Str) (hb : ∀ b ∈ d, b < 256) (hl : 4 ≤ d.length) :
    putUint32 (bigEndianUint32 d) = d.take 4 := by
  match d, hl, hb with
  | a :: b :: c :: e :: rest, _, hb =>
    have ha : a < 256 := hb a (by simp)
    have hb' : b < 256 := hb b (by simp)
    have hc : c < 256 := hb c (by simp)
    have he : e < 256 := hb e (by simp)
    simp only [putUint32, bigEndianUint32, List.getD_cons_zero, List.getD_cons_succ, List.take_succ_cons,
      List.take_zero, List.cons.injEq, and_true]
    obtain ⟨h1, h2, h3, h4, _⟩ := bigEndian_digits a b c e ha hb' hc he
    exact ⟨h1, h2, h3, h4⟩

/-- C11. Negotiation echo: for every Options-negotiation payload of bytes, if it has at
least 12 bytes and the write succeeds, the engine writes exactly one packet, with tag
`'O'` and a 12-byte payload that encodes the version and the actions decoded from the
payload (its first 8 bytes unchanged) and protocol flags 0, invokes no callback, writes
no further response, and the loop goes on; if it has fewer than 12 bytes, `run` returns
the decode error (not enough data), nothing is written and no callback is invoked. -/
theorem negotiation_echo {σ : Type} (milter : Milter σ) (s : Session σ) (data : Str)
    (hb : ∀ b ∈ data, b < 256) :
    (12 ≤ data.length → s.c.bwErr = none → (∀ q, s.c.quota = some q → 17 ≤ q) →
      (conn.handle milter s (79 :: data)).continues = true ∧
        (conn.handle milter s (79 :: data)).written s =
          packetBytes 79 (putUint32 (bigEndianUint32 data) ++
            putUint32 (bigEndianUint32 (data.drop 4)) ++ putUint32 0) ∧
        packetBytes 79 (putUint32 (bigEndianUint32 data) ++
            putUint32 (bigEndianUint32 (data.drop 4)) ++ putUint32 0) =
          [0, 0, 0, 13, 79] ++ data.take 8 ++ [0, 0, 0, 0] ∧
        (conn.handle milter s (79 :: data)).newCalls s = []) ∧
      (data.length < 12 →
        (conn.handle milter s (79 :: data)).continues = false ∧
          (conn.handle milter s (79 :: data)).error =
            some (.decodingOptions .errNotEnoughData) ∧
          (conn.handle milter s (79 :: data)).written s = [] ∧
          (conn.handle milter s (79 :: data)).newCalls s = []) := by
  obtain ⟨h1, h2, h3, _, _, _⟩ := scopeMacros_fields s.c 79
  constructor
  · intro hlen hbw hq
    have hv : bigEndianUint32 data < 2 ^ 32 := bigEndianUint32_lt data hb
    have ha : bigEndianUint32 (data.drop 4) < 2 ^ 32 :=
      bigEndianUint32_lt _ (fun b hm => hb b (List.mem_of_mem_drop hm))
    have henc : encode (.struct [.uint32 (bigEndianUint32 data),
        .uint32 (bigEndianUint32 (data.drop 4)), .uint32 0]) =
        putUint32 (bigEndianUint32 data) ++ putUint32 (bigEndianUint32 (data.drop 4)) ++
          putUint32 0 := by
      have hv' : bigEndianUint32 data % 4294967296 = bigEndianUint32 data := by omega
      have ha' : bigEndianUint32 (data.drop 4) % 4294967296 = bigEndianUint32 (data.drop 4) := by
        omega
      simp [encode, encoder.encode, encoder.encodeFields, hv', ha']
    have hlen17 : (packetBytes 79 (putUint32 (bigEndianUint32 data) ++
        putUint32 (bigEndianUint32 (data.drop 4)) ++ putUint32 0)).length = 17 := by
      simp [packetBytes_length, putUint32]
    have hstep : conn.handle milter s (79 :: data) =
        .loop { s with
          c := { s.c.scopeMacros 79 with
            output := (s.c.scopeMacros 79).output ++
              packetBytes 79 (putUint32 (bigEndianUint32 data) ++
                putUint32 (bigEndianUint32 (data.drop 4)) ++ putUint32 0),
            quota := (s.c.scopeMacros 79).quota.map
              (· - (packetBytes 79 (putUint32 (bigEndianUint32 data) ++
                putUint32 (bigEndianUint32 (data.drop 4)) ++ putUint32 0)).length) } } := by
      simp only [conn.handle, conn.dispatch, List.length_cons, Nat.add_one_ne_zero, if_false,
        List.getD_cons_zero, List.drop_succ_cons, List.drop_zero, decode_options_ok data hlen,
        henc]
      rw [respond_ok]
      · exact h3.trans hbw
      · intro q hq1
        rw [h2] at hq1
        simp only [hlen17]
        exact hq q hq1
    refine ⟨by rw [hstep]; rfl, ?_, ?_, ?_⟩
    · rw [hstep]
      simp [Step.written, session_loop, h1]
    · have t1 := putUint32_bigEndianUint32 data hb (by omega)
      have t2 := putUint32_bigEndianUint32 (data.drop 4)
        (fun b hm => hb b (List.mem_of_mem_drop hm)) (by simp; omega)
      have t3 : data.take 8 = data.take 4 ++ (data.drop 4).take 4 := by
        rw [← List.take_append_drop 4 (data.take 8)]
        simp [List.take_take, List.drop_take]
      have hl12 : (data.take 4 ++ (data.drop 4).take 4 ++ putUint32 0).length = 12 := by
        simp only [List.length_append, List.length_take, List.length_drop, putUint32_length]
        omega
      have h13 : putUint32 ((12 + 1) % 2 ^ 32) = [0, 0, 0, 13] := by decide
      rw [t1, t2, t3]
      simp only [packetBytes, hl12, h13]
      simp [putUint32]
    · rw [hstep]
      simp [Step.newCalls, session_loop]
  · intro hlen
    have hstep : conn.handle milter s (79 :: data) =
        .ret { s with c := s.c.scopeMacros 79 } (some (.decodingOptions .errNotEnoughData)) := by
      simp only [conn.handle, conn.dispatch, List.length_cons, Nat.add_one_ne_zero, if_false,
        List.getD_cons_zero, List.drop_succ_cons, List.drop_zero, decode_options_short data hlen]
    rw [hstep]
    simp [Step.continues, Step.error, Step.written, Step.newCalls, session_ret, h1]

theorem negotiation_echo_witness :
    (∀ b ∈ [0, 0, 0, 6, 0, 0, 1, 255, 0, 31, 255, 255], b < 256) ∧
      12 ≤ [0, 0, 0, 6, 0, 0, 1, 255, 0, 31, 255, 255].length ∧
      (conn.handle continueMilter (Session.start [] (some 17) ())
          (79 :: [0, 0, 0, 6, 0, 0, 1, 255, 0, 31, 255, 255])).written
          (Session.start [] (some 17) ()) =
        [0, 0, 0, 13, 79] ++ [0, 0, 0, 6, 0, 0, 1, 255, 0, 31, 255, 255].take 8 ++ [0, 0, 0, 0] ∧
      (∀ b ∈ [0, 0, 0, 6, 0, 0, 1, 255], b < 256) ∧
      [0, 0, 0, 6, 0, 0, 1, 255].length < 12 ∧
      (conn.handle continueMilter (Session.start [] (some 17) ())
          (79 :: [0, 0, 0, 6, 0, 0, 1, 255])).error =
        some (.decodingOptions .errNotEnoughData) :=
  ⟨by decide, by decide,
    ((negotiation_echo continueMilter (Session.start [] (some 17) ())
        [0, 0, 0, 6, 0, 0, 1, 255, 0, 31, 255, 255] (by decide)).1 (by decide) rfl
        (by intro q h; cases h; decide)).2.1.trans
      ((negotiation_echo continueMilter (Session.start [] (some 17) ())
        [0, 0, 0, 6, 0, 0, 1, 255, 0, 31, 255, 255] (by decide)).1 (by decide) rfl
        (by intro q h; cases h; decide)).2.2.1,
    by decide, by decide,
    ((negotiation_echo continueMilter (Session.start [] (some 17) ())
        [0, 0, 0, 6, 0, 0, 1, 255] (by decide)).2 (by decide)).2.1⟩

/-! ## Theorems: the Connect command -/

theorem indexByte_eq_none_iff (d : Str) (b : Byte) : indexByte d b = none ↔ b ∉ d := by
  induction d with
  | nil => simp [indexByte]
  | cons x xs ih =>
    by_cases hx : x = b
    · simp [indexByte, hx]
    · have hx' : ¬ b = x := fun e => hx e.symm
      simp [indexByte, hx, hx', ih]

theorem JoinHostPort_colon (host port : Str) (h : (58 : Byte) ∈ host) :
    JoinHostPort host port = [91] ++ host ++ [93, 58] ++ port := by
  unfold JoinHostPort
  cases hi : indexByte host 58 with
  | none => exact absurd h ((indexByte_eq_none_iff host 58).mp hi)
  | some i => rfl

theorem JoinHostPort_plain (host port : Str) (h : (58 : Byte) ∉ host) :
    JoinHostPort host port = host ++ [58] ++ port := by
  unfold JoinHostPort
  rw [(indexByte_eq_none_iff host 58).mpr h]

theorem decimalDigits_value (fuel : Nat) :
    ∀ (n : Nat) (acc : Str), n < fuel →
      (decimalDigits fuel n acc).foldl (fun v d => 10 * v + (d - 48)) 0 =
        acc.foldl (fun v d => 10 * v + (d - 48)) n := by
  induction fuel with
  | zero => intro n acc h; omega
  | succ fuel ih =>
    intro n acc h
    unfold decimalDigits
    by_cases h0 : n / 10 = 0
    · rw [if_pos h0]
      have : 10 * 0 + (48 + n % 10 - 48) = n := by omega
      simp only [List.foldl_cons, this]
    · rw [if_neg h0, ih (n / 10) _ (by omega)]
      have : 10 * (n / 10) + (48 + n % 10 - 48) = n := by omega
      simp only [List.foldl_cons, this]

theorem decimalDigits_digits (fuel : Nat) :
    ∀ (n : Nat) (acc : Str), (∀ x ∈ acc, 48 ≤ x ∧ x ≤ 57) →
      ∀ x ∈ decimalDigits fuel n acc, 48 ≤ x ∧ x ≤ 57 := by
  induction fuel with
  | zero => intro n acc h; simpa [decimalDigits] using h
  | succ fuel ih =>
    intro n acc h
    have hacc : ∀ x ∈ (48 + n % 10) :: acc, 48 ≤ x ∧ x ≤ 57 := by
      intro x hx
      rcases List.mem_cons.mp hx with hx | hx
      · rw [hx]; omega
      · exact h x hx
    unfold decimalDigits
    by_cases h0 : n / 10 = 0
    · rw [if_pos h0]; exact hacc
    · rw [if_neg h0]; exact ih _ _ hacc

/-- The function `strconv.Itoa` on a port: decimal digits that denote the port. -/
theorem Itoa_port (port : Nat) :
    decimalValue (Itoa port) = port ∧ ∀ x ∈ Itoa port, 48 ≤ x ∧ x ≤ 57 := by
  have hneg : ¬ ((port : Int) < 0) := by omega
  simp only [Itoa, hneg, if_false, Int.natAbs_ofNat, decimalValue]
  exact ⟨by simpa using decimalDigits_value (port + 1) port [] (by omega),
    decimalDigits_digits (port + 1) port [] (by simp)⟩

theorem writeModification_err_kept (c : conn) (code : Byte) (data : Str) (e : Error)
    (h : c.err = some e) : (c.writeModification code data).err = some e := by
  have hf := (writeResponse_fields c code data).2.2.2.2.2
  unfold conn.writeModification
  split
  · rename_i c' err hw
    rw [hw] at hf
    simp only [] at hf
    have : ¬ c'.err = none := by rw [hf, h]; simp
    rw [if_neg this, hf, h]
  · rename_i c' hw
    rw [hw] at hf
    simp only [] at hf
    rw [hf, h]

theorem writeModification_err_set (c : conn) (code : Byte) (data : Str) (e : Error)
    (h : c.err = none) (hw : (c.writeResponse code data).2 = some e) :
    (c.writeModification code data).err = some e := by
  have hf := (writeResponse_fields c code data).2.2.2.2.2
  unfold conn.writeModification
  split
  · rename_i c' err hw'
    rw [hw'] at hf hw
    simp only [] at hf hw
    rw [if_pos (hf.trans h)]
    simpa using hw
  · rename_i c' hw'
    rw [hw'] at hw
    simp at hw

theorem writeModification_err_same (c : conn) (code : Byte) (data : Str)
    (hw : (c.writeResponse code data).2 = none) :
    (c.writeModification code data).err = c.err := by
  have hf := (writeResponse_fields c code data).2.2.2.2.2
  unfold conn.writeModification
  split
  · rename_i c' err hw'
    rw [hw'] at hw
    simp at hw
  · rename_i c' hw'
    rw [hw'] at hf
    exact hf

theorem foldl_modify_err_kept (mods : List Modification) :
    ∀ (c : conn) (e : Error), c.err = some e → (mods.foldl conn.modify c).err = some e := by
  induction mods with
  | nil => intro c e h; exact h
  | cons mod mods ih =>
    intro c e h
    rw [List.foldl_cons]
    apply ih
    rw [modify_eq_writeModification]
    exact writeModification_err_kept c _ _ e h

theorem writeModification_output_stuck (c : conn) (code : Byte) (data : Str) (e : Error)
    (h : c.bwErr = some e) :
    (c.writeModification code data).output = c.output ∧
      (c.writeModification code data).bwErr = some e := by
  unfold conn.writeModification conn.writeResponse
  rw [h]
  simp only []
  split <;> simp [h]

/-- C13. Sticky mutation error: the `Modifier` methods return nothing to `Body`; a
mutation write whose `writeResponse` fails while no sticky error is recorded records
that error, a successful write leaves the sticky error as it was, and a recorded error
is kept by every later mutation write, failing or not: after the calls `pre`, all
written without an error recorded, a failing call `mod` and any later calls `post`, the
sticky error is the error of `mod`. For every End-of-body command after whose `Body`
callback the sticky error is `e`, `run` returns exactly `e`, and the connection has
received only what the mutation writes put on it: no Response packet is written. For
example a connection that accepts 20 bytes takes the 16 bytes of the `AddHeader` packet
and 4 bytes of the `ChangeHeader` packet of `headerMilter`, and `run` returns the write
error. -/
theorem sticky_mutation_error {σ : Type} (milter : Milter σ) (s : Session σ) (data : Str) :
    (∀ (c : conn) (code : Byte) (d : Str) (e : Error),
        c.err = none → (c.writeResponse code d).2 = some e →
        (c.writeModification code d).err = some e) ∧
      (∀ (c : conn) (code : Byte) (d : Str),
        (c.writeResponse code d).2 = none → (c.writeModification code d).err = c.err) ∧
      (∀ (c : conn) (code : Byte) (d : Str) (e : Error),
        c.err = some e → (c.writeModification code d).err = some e) ∧
      (∀ (c : conn) (pre post : List Modification) (mod : Modification) (e : Error),
        (pre.foldl conn.modify c).err = none →
        ((pre.foldl conn.modify c).writeResponse mod.packet.1 mod.packet.2).2 = some e →
        ((pre ++ mod :: post).foldl conn.modify c).err = some e) ∧
      (∀ e : Error,
        ((milter.Body s.m s.c.body).1.foldl conn.modify (s.c.scopeMacros 69)).err = some e →
        (conn.handle milter s (69 :: data)).continues = false ∧
          (conn.handle milter s (69 :: data)).error = some e ∧
          (conn.handle milter s (69 :: data)).session.c.output =
            ((milter.Body s.m s.c.body).1.foldl conn.modify (s.c.scopeMacros 69)).output ∧
          (conn.handle milter s (69 :: data)).newCalls s = [Call.Body s.c.body]) ∧
      (conn.handle headerMilter (Session.start [] (some 20) ()) [69]).error = some .connWrite ∧
      (conn.handle headerMilter (Session.start [] (some 20) ()) [69]).written
          (Session.start [] (some 20) ()) =
        packetBytes 104 (ascii "X-Seen" ++ [0] ++ ascii "yes" ++ [0]) ++ [0, 0, 0, 14] := by
  refine ⟨writeModification_err_set, writeModification_err_same, writeModification_err_kept,
    ?_, ?_, by decide, by decide⟩
  · intro c pre post mod e hpre hw
    rw [List.foldl_append, List.foldl_cons]
    apply foldl_modify_err_kept
    rw [modify_eq_writeModification]
    exact writeModification_err_set _ _ _ e hpre hw
  · intro e he
    have hb := (scopeMacros_fields s.c 69).2.2.2.2.2
    have hstep : conn.handle milter s (69 :: data) =
        .ret { s with
          c := (milter.Body s.m s.c.body).1.foldl conn.modify (s.c.scopeMacros 69),
          m := (milter.Body s.m s.c.body).2.2,
          calls := s.calls ++ [Call.Body s.c.body] } (some e) := by
      simp only [conn.handle, conn.dispatch, List.length_cons, Nat.add_one_ne_zero, if_false,
        List.getD_cons_zero, List.drop_succ_cons, List.drop_zero, hb, he]
    rw [hstep]
    simp [Step.continues, Step.error, Step.newCalls, session_ret]

theorem sticky_mutation_error_witness :
    ((headerMilter.Body (Session.start [] (some 20) ()).m
        (Session.start [] (some 20) ()).c.body).1.foldl conn.modify
        ((Session.start [] (some 20) ()).c.scopeMacros 69)).err = some .connWrite ∧
      (conn.handle headerMilter (Session.start [] (some 20) ()) (69 :: [])).continues = false ∧
      (conn.handle headerMilter (Session.start [] (some 20) ()) (69 :: [])).error =
        some .connWrite :=
  ⟨by decide,
    ((sticky_mutation_error headerMilter (Session.start [] (some 20) ()) []).2.2.2.2.1
      .connWrite (by decide)).1,
    ((sticky_mutation_error headerMilter (Session.start [] (some 20) ()) []).2.2.2.2.1
      .connWrite (by decide)).2.1⟩

/-! ## Theorems: missing address -/

theorem stringsSplit_head (d : Str) :
    ∃ rest, stringsSplit d 0 = d.takeWhile (fun b => b != 0) :: rest := by
  induction d with
  | nil => exact ⟨[], rfl⟩
  | cons c cs ih =>
    obtain ⟨rest, hr⟩ := ih
    by_cases hc : c = 0
    · exact ⟨stringsSplit cs 0, by simp [stringsSplit, hc]⟩
    · exact ⟨rest, by simp [stringsSplit, hc, hr]⟩

theorem takeWhile_append_zero (l : Str) :
    (l ++ [0]).takeWhile (fun b => b != 0) = l.takeWhile (fun b => b != 0) := by
  induction l with
  | nil => simp
  | cons x xs ih =>
    by_cases hx : x = 0
    · simp [hx]
    · simp [List.takeWhile_cons, hx, ih]

theorem splitCStrings_head (data : Str) (h : data ≠ []) :
    ∃ rest, splitCStrings data = data.takeWhile (fun b => b != 0) :: rest := by
  have hpos : 0 < data.length := List.length_pos.mpr h
  unfold splitCStrings
  rw [if_neg (by omega)]
  simp only []
  split
  · rename_i hlast
    obtain ⟨rest, hr⟩ := stringsSplit_head (data.take (data.length - 1))
    refine ⟨rest, ?_⟩
    rw [hr]
    have hl := getD_last_eq_getLast? data hpos
    rw [hlast] at hl
    have hd : data = data.dropLast ++ [0] := by
      have := List.dropLast_append_getLast? 0 (by simpa using hl)
      exact this.symm
    rw [← List.dropLast_eq_take]
    conv_rhs => rw [hd, takeWhile_append_zero]
  · exact stringsSplit_head data

/-- Missing address as the code implements it: a MailFrom or RcptTo command with an
empty payload, the only payload without a token, makes `run` return the error `MAIL
FROM with no address` (`RCPT TO with no address`) with no callback invoked and nothing
written; for every other payload `From` (`To`) is invoked once, with what
`stripBrackets` with `<>` returns for the first token, the bytes before the first zero
byte, whatever follows that token. -/
theorem missing_address {σ : Type} (milter : Milter σ) (s : Session σ) (data : Str) :
    (data = [] →
      (conn.handle milter s (77 :: data)).continues = false ∧
        (conn.handle milter s (77 :: data)).error = some .mailFromNoAddress ∧
        (conn.handle milter s (77 :: data)).written s = [] ∧
        (conn.handle milter s (77 :: data)).newCalls s = [] ∧
        (conn.handle milter s (82 :: data)).continues = false ∧
        (conn.handle milter s (82 :: data)).error = some .rcptToNoAddress ∧
        (conn.handle milter s (82 :: data)).written s = [] ∧
        (conn.handle milter s (82 :: data)).newCalls s = []) ∧
      (data ≠ [] →
        (conn.handle milter s (77 :: data)).newCalls s =
          [Call.From (stripBrackets (data.takeWhile (fun b => b != 0)) [60, 62])
            (s.c.scopeMacros 77).macros] ∧
        (conn.handle milter s (82 :: data)).newCalls s =
          [Call.To (stripBrackets (data.takeWhile (fun b => b != 0)) [60, 62])
            (s.c.scopeMacros 82).macros]) ∧
      (conn.handle continueMilter (Session.start [] none ())
          (77 :: (ascii "<a@b>" ++ [0] ++ ascii "SIZE=100" ++ [0]))).newCalls
          (Session.start [] none ()) = [Call.From (ascii "a@b") []] ∧
      (conn.handle continueMilter (Session.start [] none ()) [82, 0]).newCalls
          (Session.start [] none ()) = [Call.To [] []] := by
  refine ⟨?_, ?_, by decide, by decide⟩
  · intro h
    subst h
    have h77 : conn.handle milter s [77] =
        .ret { s with c := s.c.scopeMacros 77 } (some .mailFromNoAddress) := by
      simp [conn.handle, conn.dispatch, splitCStrings]
    have h82 : conn.handle milter s [82] =
        .ret { s with c := s.c.scopeMacros 82 } (some .rcptToNoAddress) := by
      simp [conn.handle, conn.dispatch, splitCStrings]
    rw [h77, h82]
    simp [Step.continues, Step.error, Step.written, Step.newCalls, session_ret,
      scopeMacros_fields]
  · intro h
    obtain ⟨rest, hr⟩ := splitCStrings_head data h
    constructor
    · simp only [conn.handle, conn.dispatch, List.length_cons, Nat.add_one_ne_zero, if_false,
        List.getD_cons_zero, List.drop_succ_cons, List.drop_zero, hr]
      simp [Step.newCalls, respond_session, writeResponse_fields]
    · simp only [conn.handle, conn.dispatch, List.length_cons, Nat.add_one_ne_zero, if_false,
        List.getD_cons_zero, List.drop_succ_cons, List.drop_zero, hr]
      simp [Step.newCalls, respond_session, writeResponse_fields]

theorem missing_address_witness :
    ascii "<a@b>" ++ [0] ++ ascii "SIZE=100" ++ [0] ≠ [] ∧
      (conn.handle continueMilter (Session.start [] none ())
          (77 :: (ascii "<a@b>" ++ [0] ++ ascii "SIZE=100" ++ [0]))).newCalls
          (Session.start [] none ()) =
        [Call.From
          (stripBrackets ((ascii "<a@b>" ++ [0] ++ ascii "SIZE=100" ++ [0]).takeWhile
            (fun b => b != 0)) [60, 62])
          ((Session.start [] none ()).c.scopeMacros 77).macros] ∧
      (conn.handle continueMilter (Session.start [] none ()) (77 :: [])).error =
        some .mailFromNoAddress :=
  ⟨by decide,
    ((missing_address continueMilter (Session.start [] none ())
      (ascii "<a@b>" ++ [0] ++ ascii "SIZE=100" ++ [0])).2.1 (by decide)).1,
    ((missing_address continueMilter (Session.start [] none ()) []).1 rfl).2.1⟩

/-- C14, the code at the failing input: for the MailFrom payload `<>`, zero byte,
`SIZE=0`, zero byte, whose first token is the bracketed empty address, `From` is passed
`<>` with its brackets, not the bracket-stripped token, which is empty; likewise `To`
for RcptTo. The rest is as stated: the later token is ignored, a first token `<a>` is
passed as `a`, and the empty payload gives the missing-address error. -/
theorem null_path_not_stripped :
    splitCStrings (ascii "<>" ++ [0] ++ ascii "SIZE=0" ++ [0]) = [ascii "<>", ascii "SIZE=0"] ∧
      (conn.handle continueMilter (Session.start [] none ())
          (77 :: (ascii "<>" ++ [0] ++ ascii "SIZE=0" ++ [0]))).newCalls
          (Session.start [] none ()) = [Call.From (ascii "<>") []] ∧
      (conn.handle continueMilter (Session.start [] none ())
          (82 :: (ascii "<>" ++ [0] ++ ascii "NOTIFY=NEVER" ++ [0]))).newCalls
          (Session.start [] none ()) = [Call.To (ascii "<>") []] ∧
      (conn.handle continueMilter (Session.start [] none ())
          (77 :: (ascii "<a>" ++ [0] ++ ascii "SIZE=0" ++ [0]))).newCalls
          (Session.start [] none ()) = [Call.From (ascii "a") []] ∧
      (conn.handle continueMilter (Session.start [] none ()) [77]).error =
        some .mailFromNoAddress := by
  decide

/-! ## Theorems: malformed header pair -/

theorem stringsSplit_eq_single (d : Str) :
    ∀ b : Str, stringsSplit d 0 = [b] → d = b ∧ (0 : Byte) ∉ b := by
  induction d with
  | nil =>
    intro b h
    simp only [stringsSplit, List.cons.injEq, and_true] at h
    subst h
    simp
  | cons c cs ih =>
    intro b h
    by_cases hc : c = 0
    · obtain ⟨rest, hr⟩ := stringsSplit_head cs
      simp [stringsSplit, hc, hr] at h
    · obtain ⟨rest, hr⟩ := stringsSplit_head cs
      simp only [stringsSplit, hc, if_false, hr, List.cons.injEq] at h
      obtain ⟨h1, h2⟩ := h
      subst h2
      obtain ⟨e1, e2⟩ := ih _ hr
      subst h1
      refine ⟨by rw [← e1], ?_⟩
      intro hm
      rcases List.mem_cons.mp hm with hm | hm
      · exact hc hm.symm
      · exact e2 hm

theorem stringsSplit_eq_pair (d : Str) :
    ∀ a b : Str, stringsSplit d 0 = [a, b] → d = a ++ 0 :: b ∧ (0 : Byte) ∉ a ∧ (0 : Byte) ∉ b := by
  induction d with
  | nil =>
    intro a b h
    simp [stringsSplit] at h
  | cons c cs ih =>
    intro a b h
    by_cases hc : c = 0
    · simp only [stringsSplit, hc, if_true, List.cons.injEq] at h
      obtain ⟨h1, h2⟩ := h
      obtain ⟨e1, e2⟩ := stringsSplit_eq_single cs b h2
      subst h1
      exact ⟨by simp [hc, e1], by simp, e2⟩
    · obtain ⟨rest, hr⟩ := stringsSplit_head cs
      simp only [stringsSplit, hc, if_false, hr, List.cons.injEq] at h
      obtain ⟨h1, h2⟩ := h
      subst h2
      obtain ⟨e1, e2, e3⟩ := ih _ b hr
      subst h1
      refine ⟨by rw [List.cons_append, ← e1], ?_, e3⟩
      intro hm
      rcases List.mem_cons.mp hm with hm | hm
      · exact hc hm.symm
      · exact e2 hm

theorem splitCStrings_pair_open (name value : Str) (hn : (0 : Byte) ∉ name)
    (hv : (0 : Byte) ∉ value) (hne : value ≠ []) :
    splitCStrings (name ++ [0] ++ value) = [name, value] := by
  have hpos : 0 < (name ++ [0] ++ value).length := by simp
  have hlast : (name ++ [0] ++ value).getD ((name ++ [0] ++ value).length - 1) 0 ≠ 0 := by
    intro h0
    have hl := getD_last_eq_getLast? (name ++ [0] ++ value) hpos
    rw [h0, List.getLast?_append_of_ne_nil _ hne] at hl
    exact hv (List.mem_of_getLast?_eq_some hl)
  unfold splitCStrings
  rw [if_neg (by omega)]
  simp only [hlast, if_false]
  have : name ++ [0] ++ value = name ++ 0 :: value := by simp
  rw [this, stringsSplit_append name value hn, stringsSplit_no_sep value hv]

/-- The payloads `splitCStrings` splits into exactly two tokens: a name and a value
without zero bytes, each followed by a zero byte, or a non-empty value without its zero
byte. -/
theorem splitCStrings_two_iff (data : Str) :
    (splitCStrings data).length = 2 ↔
      ∃ name value : Str, (0 : Byte) ∉ name ∧ (0 : Byte) ∉ value ∧
        (data = name ++ [0] ++ value ++ [0] ∨ (value ≠ [] ∧ data = name ++ [0] ++ value)) := by
  constructor
  · intro h
    have hne : data ≠ [] := by
      intro e
      subst e
      simp [splitCStrings] at h
    have hpos : 0 < data.length := List.length_pos.mpr hne
    match hs : splitCStrings data, h with
    | [a, b], _ =>
      unfold splitCStrings at hs
      rw [if_neg (by omega)] at hs
      simp only [] at hs
      split at hs
      · rename_i hlast
        rw [← List.dropLast_eq_take] at hs
        obtain ⟨e1, e2, e3⟩ := stringsSplit_eq_pair _ a b hs
        have hl := getD_last_eq_getLast? data hpos
        rw [hlast] at hl
        have hd : data.dropLast ++ [0] = data :=
          List.dropLast_append_getLast? 0 (by simpa using hl)
        refine ⟨a, b, e2, e3, Or.inl ?_⟩
        rw [← hd, e1]
        simp
      · rename_i hlast
        obtain ⟨e1, e2, e3⟩ := stringsSplit_eq_pair _ a b hs
        refine ⟨a, b, e2, e3, Or.inr ⟨?_, by rw [e1]; simp⟩⟩
        intro hb
        subst hb
        apply hlast
        rw [e1]
        simp
  · rintro ⟨name, value, hn, hv, h | ⟨hne, h⟩⟩
    · rw [h, splitCStrings_pair name value hn hv]
      rfl
    · rw [h, splitCStrings_pair_open name value hn hv hne]
      rfl

/-- C15, as stated, fails: the Header payload `a`, zero byte, `b`, whose second token
is not followed by a zero byte, is accepted: the loop goes on and the accumulator
receives the value `b` under the key `A`. -/
theorem header_pair_counterexample :
    (ascii "a" ++ [0] ++ ascii "b").getLast? = some 98 ∧
      (conn.handle continueMilter (Session.start [] none ())
          (76 :: (ascii "a" ++ [0] ++ ascii "b"))).continues = true ∧
      (conn.handle continueMilter (Session.start [] none ())
          (76 :: (ascii "a" ++ [0] ++ ascii "b"))).session.c.headers =
        [(ascii "A", [ascii "b"])] := by
  decide

/-- C15, amended. Malformed header pair: a Header command is accepted if and only if
`splitCStrings` splits its payload into exactly two tokens, that is, the payload is a
name and a value without zero bytes, each followed by one zero byte, or the same
without the final zero byte when the value is not empty. An accepted command adds the
value to the header accumulator under the name, and the loop goes on when the response
is written. For every other payload `run` returns the error `header key/value pair with
n items (should be 2)`, the header accumulator receives no new entry, nothing is
written and no callback is invoked. -/
theorem header_pair {σ : Type} (milter : Milter σ) (s : Session σ) (data : Str) :
    ((splitCStrings data).length = 2 ↔
        ∃ name value : Str, (0 : Byte) ∉ name ∧ (0 : Byte) ∉ value ∧
          (data = name ++ [0] ++ value ++ [0] ∨ (value ≠ [] ∧ data = name ++ [0] ++ value))) ∧
      (∀ name value : Str, splitCStrings data = [name, value] →
        (conn.handle milter s (76 :: data)).session.c.headers =
            MIMEHeader.Add s.c.headers name value ∧
          (conn.handle milter s (76 :: data)).newCalls s = [] ∧
          (s.c.bwErr = none → (∀ q, s.c.quota = some q → 5 ≤ q) →
            (conn.handle milter s (76 :: data)).continues = true)) ∧
      ((splitCStrings data).length ≠ 2 →
        (conn.handle milter s (76 :: data)).continues = false ∧
          (conn.handle milter s (76 :: data)).error =
            some (.headerItems (splitCStrings data).length) ∧
          (conn.handle milter s (76 :: data)).session.c.headers = s.c.headers ∧
          (conn.handle milter s (76 :: data)).written s = [] ∧
          (conn.handle milter s (76 :: data)).newCalls s = []) := by
  refine ⟨splitCStrings_two_iff data, ?_, ?_⟩
  · intro name value hs
    have hl : (splitCStrings data).length = 2 := by rw [hs]; rfl
    refine ⟨?_, ?_, ?_⟩
    · simp only [conn.handle, conn.dispatch, List.length_cons, Nat.add_one_ne_zero, if_false,
        List.getD_cons_zero, List.drop_succ_cons, List.drop_zero, hs]
      simp [respond_session, writeResponse_fields, scopeMacros_fields]
    · simp only [conn.handle, conn.dispatch, List.length_cons, Nat.add_one_ne_zero, if_false,
        List.getD_cons_zero, List.drop_succ_cons, List.drop_zero, hs]
      simp [Step.newCalls, respond_session]
    · intro hbw hq
      obtain ⟨_, h2, h3, _, _, _⟩ := scopeMacros_fields s.c 76
      have hpk : packetBytes Continue.code Continue.data = [0, 0, 0, 1, 99] := by decide
      simp only [conn.handle, conn.dispatch, List.length_cons, Nat.add_one_ne_zero, if_false,
        List.getD_cons_zero, List.drop_succ_cons, List.drop_zero, hs]
      rw [respond_ok _ Continue (h3.trans hbw)
        (by intro q hq1; rw [hpk]; exact hq q (h2 ▸ hq1))]
      simp [Step.continues]
  · intro hl
    have hstep : conn.handle milter s (76 :: data) =
        .ret { s with c := s.c.scopeMacros 76 } (some (.headerItems (splitCStrings data).length)) := by
      simp only [conn.handle, conn.dispatch, List.length_cons, Nat.add_one_ne_zero, if_false,
        List.getD_cons_zero, List.drop_succ_cons, List.drop_zero, ne_eq, hl, not_false_eq_true,
        if_true]
    rw [hstep]
    simp [Step.continues, Step.error, Step.written, Step.newCalls, session_ret,
      scopeMacros_fields]

theorem header_pair_witness :
    (splitCStrings (ascii "Subject" ++ [0])).length ≠ 2 ∧
      (conn.handle continueMilter (Session.start [] none ())
          (76 :: (ascii "Subject" ++ [0]))).error =
        some (.headerItems (splitCStrings (ascii "Subject" ++ [0])).length) ∧
      splitCStrings (ascii "a" ++ [0] ++ ascii "b") = [ascii "a", ascii "b"] ∧
      (conn.handle continueMilter (Session.start [] none ())
          (76 :: (ascii "a" ++ [0] ++ ascii "b"))).session.c.headers =
        MIMEHeader.Add (Session.start [] none ()).c.headers (ascii "a") (ascii "b") :=
  ⟨by decide,
    ((header_pair continueMilter (Session.start [] none ()) (ascii "Subject" ++ [0])).2.2
      (by decide)).2.1,
    by decide,
    ((header_pair continueMilter (Session.start [] none ()) (ascii "a" ++ [0] ++ ascii "b")).2.1
      (ascii "a") (ascii "b") (by decide)).1⟩

/-! ## Theorems: decode failures -/

theorem indexByte_some_split (d : Str) :
    ∀ i, indexByte d 0 = some i →
      d.take i = d.takeWhile (fun b => b != 0) ∧
        d.drop (i + 1) = (d.dropWhile (fun b => b != 0)).drop 1 := by
  induction d with
  | nil => intro i h; simp [indexByte] at h
  | cons x xs ih =>
    intro i h
    by_cases hx : x = 0
    · simp only [indexByte, hx, if_true, Option.some.injEq] at h
      subst h
      simp [hx]
    · simp only [indexByte, hx, if_false, Option.map_eq_some'] at h
      obtain ⟨j, hj, rfl⟩ := h
      obtain ⟨h1, h2⟩ := ih j hj
      simp [List.takeWhile_cons, List.dropWhile_cons, hx, h1, h2]

theorem bigEndianValue_take1 (d : Str) (h : 1 ≤ d.length) :
    bigEndianValue (d.take 1) = d.getD 0 0 := by
  match d, h with
  | a :: rest, _ => simp [bigEndianValue]

theorem bigEndianValue_take2 (d : Str) (h : 2 ≤ d.length) :
    bigEndianValue (d.take 2) = bigEndianUint16 d := by
  match d, h with
  | a :: b :: rest, _ => simp [bigEndianValue, bigEndianUint16]

theorem bigEndianValue_take4 (d : Str) (h : 4 ≤ d.length) :
    bigEndianValue (d.take 4) = bigEndianUint32 d := by
  match d, h with
  | a :: b :: c :: e :: rest, _ =>
    simp only [bigEndianValue, bigEndianUint32, List.take_succ_cons, List.take_zero,
      List.foldl_cons, List.foldl_nil, List.getD_cons_zero, List.getD_cons_succ]
    ring

mutual
/-- Decoding a value and then the fields `more` as the specification describes it is
decoding the fields of the value's shape followed by `more`. -/
theorem decoder_decode_refines (sh : Shape) (d : Str) (more : List FieldKind) :
    specDecode (sh.fields ++ more) d =
      match decoder.decode sh d with
      | .error e => .error e
      | .ok (v, d') =>
        match specDecode more d' with
        | .error e => .error e
        | .ok (vs, rest) => .ok (v.fieldValues ++ vs, rest) := by
  cases sh with
  | uint8 =>
    simp only [Shape.fields, List.cons_append, List.nil_append, specDecode, decoder.decode]
    by_cases h : d.length < 1
    · simp [h]
    · simp only [h, if_false, bigEndianValue_take1 d (by omega), Value.fieldValues,
        List.cons_append, List.nil_append]
      rfl
  | uint16 =>
    simp only [Shape.fields, List.cons_append, List.nil_append, specDecode, decoder.decode]
    by_cases h : d.length < 2
    · simp [h]
    · simp only [h, if_false, bigEndianValue_take2 d (by omega), Value.fieldValues,
        List.cons_append, List.nil_append]
      rfl
  | uint32 =>
    simp only [Shape.fields, List.cons_append, List.nil_append, specDecode, decoder.decode]
    by_cases h : d.length < 4
    · simp [h]
    · simp only [h, if_false, bigEndianValue_take4 d (by omega), Value.fieldValues,
        List.cons_append, List.nil_append]
      rfl
  | string =>
    simp only [Shape.fields, List.cons_append, List.nil_append, specDecode, decoder.decode]
    cases hi : indexByte d 0 with
    | none =>
      have := (indexByte_eq_none_iff d 0).mp hi
      simp [this]
    | some i =>
      have hm : (0 : Byte) ∈ d := by
        by_contra hn
        rw [(indexByte_eq_none_iff d 0).mpr hn] at hi
        cases hi
      obtain ⟨h1, h2⟩ := indexByte_some_split d i hi
      simp only [hm, if_true, h1, h2, Value.fieldValues, List.cons_append, List.nil_append]
      rfl
  | ptr s =>
    simp only [Shape.fields, decoder.decode, decoder_decode_refines s d more]
    cases decoder.decode s d with
    | error e => rfl
    | ok r => simp only [Value.fieldValues]
  | struct fs =>
    simp only [Shape.fields, decoder.decode, decoder_decodeFields_refines fs d more]
    cases decoder.decodeFields fs d with
    | error e => rfl
    | ok r => simp only [Value.fieldValues]
/-- The same for the fields of a struct. -/
theorem decoder_decodeFields_refines (fs : List Shape) (d : Str) (more : List FieldKind) :
    specDecode (Shape.fieldsOfStruct fs ++ more) d =
      match decoder.decodeFields fs d with
      | .error e => .error e
      | .ok (vs, d') =>
        match specDecode more d' with
        | .error e => .error e
        | .ok (ws, rest) => .ok (Value.fieldValuesOfStruct vs ++ ws, rest) := by
  cases fs with
  | nil =>
    simp only [Shape.fieldsOfStruct, List.nil_append, decoder.decodeFields,
      Value.fieldValuesOfStruct]
    cases specDecode more d with
    | error e => rfl
    | ok r => rfl
  | cons f fs' =>
    simp only [Shape.fieldsOfStruct, List.append_assoc, decoder.decodeFields,
      decoder_decode_refines f d (Shape.fieldsOfStruct fs' ++ more)]
    cases decoder.decode f d with
    | error e => rfl
    | ok r =>
      obtain ⟨v, d'⟩ := r
      simp only [decoder_decodeFields_refines fs' d' more]
      cases decoder.decodeFields fs' d' with
      | error e => rfl
      | ok r' =>
        obtain ⟨vs, d''⟩ := r'
        simp only [Value.fieldValuesOfStruct, List.append_assoc]
        cases specDecode more d'' with
        | error e => rfl
        | ok r'' => rfl
end

theorem decoder_decode_spec (sh : Shape) (d : Str) :
    specDecode sh.fields d =
      match decoder.decode sh d with
      | .error e => .error e
      | .ok (v, rest) => .ok (v.fieldValues, rest) := by
  have h := decoder_decode_refines sh d []
  rw [List.append_nil] at h
  rw [h]
  cases decoder.decode sh d with
  | error e => rfl
  | ok r => simp [specDecode]

/-- C16. Decode failure conditions: for every record shape and every input, `decode`
agrees with consuming the fields in declared order (nested records in place) as the
specification describes: it fails with the error `e` if and only if the first field
that finds too little gives `e`, a fixed-width field (1, 2 or 4 bytes) with fewer bytes
remaining than its width giving `not enough data` and a text field with no zero byte
remaining giving `unterminated C string`; otherwise it succeeds, each integer field
holding the big-endian value of its bytes and each text field the bytes up to the first
zero byte, that zero byte consumed. For example a text without zero byte in front of a
missing integer reports the unterminated text, and a truncated integer in front of an
unterminated text reports insufficient data. -/
theorem decode_failure_conditions (sh : Shape) (d : Str) :
    (∀ e, decode d sh = .error e ↔ specDecode sh.fields d = .error e) ∧
      (∀ v rest, decoder.decode sh d = .ok (v, rest) →
        specDecode sh.fields d = .ok (v.fieldValues, rest) ∧ v.shape = sh) ∧
      (∀ vs rest, specDecode sh.fields d = .ok (vs, rest) →
        ∃ v, decoder.decode sh d = .ok (v, rest) ∧ decode d sh = .ok v ∧ v.fieldValues = vs) ∧
      decode (ascii "ab") (.struct [.string, .uint8]) = .error .unterminatedCString ∧
      decode [1] (.struct [.uint16, .string]) = .error .errNotEnoughData ∧
      decode ([0, 25] ++ ascii "mx" ++ [0, 7]) (.struct [.uint16, .struct [.string], .uint8]) =
        .ok (.struct [.uint16 25, .struct [.string (ascii "mx")], .uint8 7]) := by
  have hs := decoder_decode_spec sh d
  refine ⟨?_, ?_, ?_, rfl, rfl, rfl⟩
  · intro e
    unfold decode
    cases hd : decoder.decode sh d with
    | error e' => simp [hs, hd]
    | ok r => simp [hs, hd]
  · intro v rest hd
    exact ⟨by rw [hs, hd], decoder_decode_shape sh d v rest hd⟩
  · intro vs rest h
    unfold decode
    cases hd : decoder.decode sh d with
    | error e' => rw [hs, hd] at h; cases h
    | ok r =>
      obtain ⟨v, rest'⟩ := r
      rw [hs, hd] at h
      simp only [Except.ok.injEq, Prod.mk.injEq] at h
      exact ⟨v, by rw [h.2], rfl, h.1⟩

theorem decode_failure_conditions_witness :
    decoder.decode (.struct [.uint8, .string]) [7, 97, 0, 9] =
        .ok (.struct [.uint8 7, .string [97]], [9]) ∧
      specDecode (Shape.struct [.uint8, .string]).fields [7, 97, 0, 9] =
        .ok ((Value.struct [.uint8 7, .string [97]]).fieldValues, [9]) :=
  ⟨rfl,
    ((decode_failure_conditions (.struct [.uint8, .string]) [7, 97, 0, 9]).2.1
      (.struct [.uint8 7, .string [97]]) [9] rfl).1⟩

/-! ## Theorems: the mutation records -/

theorem writeModification_ok (c : conn) (code : Byte) (data : Str) (hbw : c.bwErr = none)
    (hq : ∀ q, c.quota = some q → (packetBytes code data).length ≤ q) :
    c.writeModification code data =
      { c with
        output := c.output ++ packetBytes code data,
        quota := c.quota.map (· - (packetBytes code data).length) } := by
  rw [conn.writeModification, writeResponse_packet c code data hbw hq]

/-- C17. Change-header record layout: for every name and value and every index with
`1 <= index < 2^32`, a `ChangeHeader(name, index, value)` whose write succeeds writes
one packet with action byte `'m'` whose payload is the 4-byte big-endian index, then
the name followed by one zero byte, then the value followed by one zero byte (an empty
value yields just the zero byte); `AddHeader(name, value)` writes one `'h'` packet whose
payload is the name, a zero byte, the value, a zero byte. -/
theorem change_header_layout (c : conn) (name value : Str) (index : Int)
    (h1 : 1 ≤ index) (h2 : index < 2 ^ 32) (hbw : c.bwErr = none)
    (hq : ∀ q, c.quota = some q → name.length + value.length + 11 ≤ q) :
    (c.ChangeHeader name index value).output =
        c.output ++ packetBytes 109 (putUint32 index.toNat ++ name ++ [0] ++ value ++ [0]) ∧
      (c.ChangeHeader name index []).output =
        c.output ++ packetBytes 109 (putUint32 index.toNat ++ name ++ [0] ++ [0]) ∧
      (c.AddHeader name value).output =
        c.output ++ packetBytes 104 (name ++ [0] ++ value ++ [0]) ∧
      ((newConn [] none).ChangeHeader (ascii "Subject") 2 (ascii "hi")).output =
        [0, 0, 0, 16, 109, 0, 0, 0, 2] ++ ascii "Subject" ++ [0] ++ ascii "hi" ++ [0] := by
  have hi : (index % 2 ^ 32).toNat = index.toNat := by
    rw [Int.emod_eq_of_lt (by omega) h2]
  have hlt : index.toNat < 2 ^ 32 := by omega
  have hm : index.toNat % 2 ^ 32 = index.toNat := Nat.mod_eq_of_lt hlt
  have encM : ∀ v : Str, encode (.struct [.uint32 (index % 2 ^ 32).toNat, .string name, .string v]) =
      putUint32 index.toNat ++ name ++ [0] ++ v ++ [0] := by
    intro v
    simp only [encode, encoder.encode, encoder.encodeFields, hi, hm]
    simp
  have encH : encode (.struct [.string name, .string value]) = name ++ [0] ++ value ++ [0] := by
    simp [encode, encoder.encode, encoder.encodeFields]
  refine ⟨?_, ?_, ?_, by decide⟩
  · rw [conn.ChangeHeader, encM, writeModification_ok c _ _ hbw]
    intro q hq1
    have := hq q hq1
    simp only [packetBytes_length, List.length_append, putUint32_length, List.length_singleton]
    omega
  · rw [conn.ChangeHeader, encM, writeModification_ok c _ _ hbw]
    · simp
    · intro q hq1
      have := hq q hq1
      simp only [packetBytes_length, List.length_append, putUint32_length, List.length_singleton,
        List.length_nil]
      omega
  · rw [conn.AddHeader, encH, writeModification_ok c _ _ hbw]
    intro q hq1
    have := hq q hq1
    simp only [packetBytes_length, List.length_append, List.length_singleton]
    omega

theorem change_header_layout_witness :
    (1 : Int) ≤ 3 ∧ (3 : Int) < 2 ^ 32 ∧ (newConn [] (some 30) ).bwErr = none ∧
      ((newConn [] (some 30)).ChangeHeader (ascii "Received") 3 []).output =
        (newConn [] (some 30)).output ++
          packetBytes 109 (putUint32 (3 : Int).toNat ++ ascii "Received" ++ [0] ++ [] ++ [0]) :=
  ⟨by decide, by decide, rfl,
    (change_header_layout (newConn [] (some 30)) (ascii "Received") [] 3 (by decide) (by decide)
      rfl (by intro q h; cases h; decide)).1⟩

/-! ## Theorems: body accumulation -/

theorem handle_bodyChunk {σ : Type} (milter : Milter σ) (s : Session σ) (p : Str) :
    (conn.handle milter s (66 :: p)).session.c.body = s.c.body ++ p ∧
      (conn.handle milter s (66 :: p)).session.calls = s.calls := by
  simp only [conn.handle, conn.dispatch, List.length_cons, Nat.add_one_ne_zero, if_false,
    List.getD_cons_zero, List.drop_succ_cons, List.drop_zero]
  simp [respond_session, writeResponse_fields, scopeMacros_fields]

theorem handle_endOfBody_body {σ : Type} (milter : Milter σ) (s : Session σ) (data : Str) :
    (conn.handle milter s (69 :: data)).session.c.err = none →
      (conn.handle milter s (69 :: data)).session.c.body = [] := by
  simp only [conn.handle, conn.dispatch, List.length_cons, Nat.add_one_ne_zero, if_false,
    List.getD_cons_zero, List.drop_succ_cons, List.drop_zero]
  split
  · rename_i err he
    intro h
    simp only [session_ret] at h
    rw [he] at h
    cases h
  · intro _
    simp [respond_session, writeResponse_fields]

theorem handle_endOfBody_loop {σ : Type} (milter : Milter σ) (s s' : Session σ) (data : Str)
    (h : conn.handle milter s (69 :: data) = .loop s') : s'.c.body = [] := by
  simp only [conn.handle, conn.dispatch, List.length_cons, Nat.add_one_ne_zero, if_false,
    List.getD_cons_zero, List.drop_succ_cons, List.drop_zero] at h
  split at h
  · cases h
  · have hs := respond_session
      { s with
        c := { (milter.Body s.m (s.c.scopeMacros 69).body).1.foldl conn.modify
            (s.c.scopeMacros 69) with body := [] },
        m := (milter.Body s.m (s.c.scopeMacros 69).body).2.2,
        calls := s.calls ++ [Call.Body (s.c.scopeMacros 69).body] }
      (milter.Body s.m (s.c.scopeMacros 69).body).2.1
    rw [h, session_loop] at hs
    rw [hs]
    simp [writeResponse_fields]

theorem dispatch_body_other {σ : Type} (milter : Milter σ) (s : Session σ) (command : Byte)
    (data : Str) (h1 : command ≠ 66) (h2 : command ≠ 65) (h3 : command ≠ 69) :
    (conn.dispatch milter s command data).session.c.body = s.c.body := by
  have hf := foldl_modify_fields
  unfold conn.dispatch
  split
  all_goals try simp only []
  all_goals repeat' split
  all_goals simp_all [respond_session, writeResponse_fields, session_loop, session_ret, hf]

/-- A command other than Body-chunk, Abort and End-of-body leaves the body accumulator
as it was. -/
theorem handle_body_other {σ : Type} (milter : Milter σ) (s : Session σ) (p : Str)
    (h1 : p.getD 0 0 ≠ 66) (h2 : p.getD 0 0 ≠ 65) (h3 : p.getD 0 0 ≠ 69) :
    (conn.handle milter s p).session.c.body = s.c.body := by
  unfold conn.handle
  split
  · rfl
  · simp only []
    rw [dispatch_body_other milter _ _ _ h1 h2 h3]
    exact (scopeMacros_fields s.c _).2.2.2.2.2

theorem packet_eq_tag_cons (p : Str) (t : Byte) (h : p.getD 0 0 = t) (ht : t ≠ 0) :
    p = t :: p.drop 1 := by
  cases p with
  | nil => exact absurd h.symm ht
  | cons a as => simp at h; simp [h]

/-- After the command packets `ps`, none an Abort or an End-of-body, have been read and
processed with the loop going on, the accumulator holds what it held followed by the
payloads of the Body-chunk packets in order. -/
theorem runLoop_chunks {σ : Type} (milter : Milter σ) (ps : List Str) :
    ∀ (tail : Str) (s s' : Session σ),
      (∀ p ∈ ps, p.getD 0 0 ≠ 65 ∧ p.getD 0 0 ≠ 69 ∧ p.length < 2 ^ 32) →
      s.c.input = frames ps ++ tail →
      conn.runLoop milter ps.length s = .loop s' →
      s'.c.input = tail ∧ s'.c.body = s.c.body ++ concat (bodyChunks ps) := by
  induction ps with
  | nil =>
    intro tail s s' _ hin hrun
    simp only [List.length_nil, conn.runLoop] at hrun
    cases hrun
    exact ⟨by simpa [frames] using hin, by simp [bodyChunks, concat]⟩
  | cons p ps ih =>
    intro tail s s' hwf hin hrun
    obtain ⟨hA, hE, hl⟩ := hwf p (by simp)
    have hin' : s.c.input = frame p ++ (frames ps ++ tail) := by
      simp [hin, frames, List.append_assoc]
    rw [List.length_cons, runLoop_succ_frame milter _ s _ _ hl hin'] at hrun
    have hi := handle_input milter
      { s with c := { s.c with input := frames ps ++ tail } } p
    cases hstep : conn.handle milter
      { s with c := { s.c with input := frames ps ++ tail } } p with
    | ret s1 e => simp [hstep] at hrun
    | loop s1 =>
      simp only [hstep] at hrun
      simp only [hstep, session_loop] at hi
      obtain ⟨h1, h3⟩ := ih tail s1 s' (fun x hx => hwf x (by simp [hx])) hi hrun
      refine ⟨h1, ?_⟩
      by_cases hB : p.getD 0 0 = 66
      · have hp := packet_eq_tag_cons p 66 hB (by decide)
        have hh := handle_bodyChunk milter
          { s with c := { s.c with input := frames ps ++ tail } } (p.drop 1)
        rw [← hp, hstep, session_loop] at hh
        rw [h3, hh.1]
        simp only [bodyChunks, if_pos hB, concat, List.append_assoc]
      · have hh := handle_body_other milter
          { s with c := { s.c with input := frames ps ++ tail } } p hB hA hE
        rw [hstep, session_loop] at hh
        rw [h3, hh]
        simp only [bodyChunks, if_neg hB]

/-- C18. Body accumulation: for every sequence of commands read from the connection and
processed with the loop going on, starting with an empty accumulator, none of them an
Abort or an End-of-body, whose Body-chunk commands have the payloads `p1..pk`, and
which is followed by End-of-body, the `Body` callback is invoked once, with exactly the
concatenation `p1 ++ ... ++ pk`. When no mutation write failed the body accumulator is
empty after the End-of-body command, so the body of the next message starts from
nothing: a following End-of-body passes the empty body, and a following Body-chunk `q`
with End-of-body passes `q`. -/
theorem body_accumulation {σ : Type} (milter : Milter σ) (s s1 : Session σ)
    (ps : List Str) (data rest : Str)
    (hwf : ∀ p ∈ ps, p.getD 0 0 ≠ 65 ∧ p.getD 0 0 ≠ 69 ∧ p.length < 2 ^ 32)
    (hd : (69 :: data).length < 2 ^ 32)
    (hin : s.c.input = frames ps ++ (frame (69 :: data) ++ rest))
    (hempty : s.c.body = [])
    (hrun : conn.runLoop milter ps.length s = .loop s1) :
    (conn.iteration milter s1).newCalls s1 = [Call.Body (concat (bodyChunks ps))] ∧
      ((conn.iteration milter s1).session.c.err = none →
        (conn.iteration milter s1).session.c.body = []) ∧
      (∀ s2 q d2 d3, conn.iteration milter s1 = .loop s2 →
        (conn.handle milter s2 (69 :: d2)).newCalls s2 = [Call.Body []] ∧
          (conn.handle milter (conn.handle milter s2 (66 :: q)).session (69 :: d3)).newCalls
            (conn.handle milter s2 (66 :: q)).session = [Call.Body q]) ∧
      (conn.runLoop continueMilter 7
        (Session.start
          (frames [66 :: ascii "Hello, ", [84], 66 :: ascii "world",
            definePacket 69 [(ascii "i", ascii "4F2A")], [69], 66 :: ascii "next", [69]])
          none ())).session.calls =
        [Call.Body (ascii "Hello, world"), Call.Body (ascii "next")] := by
  obtain ⟨h1, h3⟩ := runLoop_chunks milter ps _ s s1 hwf hin hrun
  have hit := iteration_frame milter s1 (69 :: data) rest hd h1
  have hb : s1.c.body = concat (bodyChunks ps) := by rw [h3, hempty]; rfl
  refine ⟨?_, ?_, ?_, by decide⟩
  · rw [hit, ← hb]
    exact handle_endOfBody milter { s1 with c := { s1.c with input := rest } } data
  · rw [hit]
    exact handle_endOfBody_body milter _ data
  · intro s2 q d2 d3 h2
    have hs2 : s2.c.body = [] :=
      handle_endOfBody_loop milter { s1 with c := { s1.c with input := rest } } s2 data
        (hit ▸ h2)
    have e1 := handle_endOfBody milter s2 d2
    have e2 := handle_endOfBody milter (conn.handle milter s2 (66 :: q)).session d3
    rw [(handle_bodyChunk milter s2 q).1, hs2] at e2
    rw [hs2] at e1
    exact ⟨e1, by simpa using e2⟩

theorem body_accumulation_witness :
    (∀ p ∈ [66 :: ascii "ab", heloPacket, 66 :: ascii "cd",
          definePacket 69 [(ascii "i", ascii "4F2A")]],
        p.getD 0 0 ≠ 65 ∧ p.getD 0 0 ≠ 69 ∧ p.length < 2 ^ 32) ∧
      (conn.iteration continueMilter
          (conn.runLoop continueMilter 4
            (Session.start
              (frames [66 :: ascii "ab", heloPacket, 66 :: ascii "cd",
                definePacket 69 [(ascii "i", ascii "4F2A")]] ++ (frame (69 :: []) ++ []))
              none ())).session).newCalls
          (conn.runLoop continueMilter 4
            (Session.start
              (frames [66 :: ascii "ab", heloPacket, 66 :: ascii "cd",
                definePacket 69 [(ascii "i", ascii "4F2A")]] ++ (frame (69 :: []) ++ []))
              none ())).session =
        [Call.Body (concat (bodyChunks [66 :: ascii "ab", heloPacket, 66 :: ascii "cd",
          definePacket 69 [(ascii "i", ascii "4F2A")]]))] :=
  ⟨by decide,
    (body_accumulation continueMilter
      (Session.start
        (frames [66 :: ascii "ab", heloPacket, 66 :: ascii "cd",
          definePacket 69 [(ascii "i", ascii "4F2A")]] ++ (frame (69 :: []) ++ []))
        none ())
      (conn.runLoop continueMilter 4
        (Session.start
          (frames [66 :: ascii "ab", heloPacket, 66 :: ascii "cd",
            definePacket 69 [(ascii "i", ascii "4F2A")]] ++ (frame (69 :: []) ++ []))
          none ())).session
      [66 :: ascii "ab", heloPacket, 66 :: ascii "cd",
        definePacket 69 [(ascii "i", ascii "4F2A")]] [] [] (by decide) (by decide) rfl rfl
      (by rfl)).1⟩

/-! ## Theorems: `splitCStrings` -/

theorem cstrings_append (a b : List Str) : cstrings (a ++ b) = cstrings a ++ cstrings b := by
  induction a with
  | nil => rfl
  | cons x xs ih => simp [cstrings, ih]

theorem splitCStrings_dropLast_cstrings (init : List Str) (t : Str) (ht : t ≠ [])
    (h0 : ∀ s ∈ init ++ [t], (0 : Byte) ∉ s) :
    splitCStrings (cstrings (init ++ [t])).dropLast = init ++ [t] := by
  have hd : (cstrings (init ++ [t])).dropLast = cstrings init ++ t := by
    rw [cstrings_append]
    have : cstrings [t] = t ++ [0] := by simp [cstrings]
    rw [this, ← List.append_assoc, List.dropLast_concat]
  have ht0 : (0 : Byte) ∉ t := h0 t (by simp)
  have hne : cstrings init ++ t ≠ [] := by simp [ht]
  have hpos : 0 < (cstrings init ++ t).length := List.length_pos.mpr hne
  have hlast : (cstrings init ++ t).getD ((cstrings init ++ t).length - 1) 0 ≠ 0 := by
    intro h
    have hl := getD_last_eq_getLast? (cstrings init ++ t) hpos
    rw [h, List.getLast?_append_of_ne_nil _ ht] at hl
    exact ht0 (List.mem_of_getLast?_eq_some hl)
  have hs := stringsSplit_dropLast_cstrings (init ++ [t]) (by simp) h0
  rw [hd] at hs
  rw [hd]
  unfold splitCStrings
  rw [if_neg (by omega)]
  simp only [hlast, if_false]
  exact hs

/-- C19, as stated, fails: for the list `["a", ""]`, whose last string is empty, the
concatenation is `a`, zero, zero; with the final zero byte omitted `splitCStrings`
returns `["a"]`, and for the list `[""]` it returns the empty list. -/
theorem splitCStrings_counterexample :
    (cstrings [ascii "a", []]).dropLast = [97, 0] ∧
      splitCStrings (cstrings [ascii "a", []]).dropLast = [ascii "a"] ∧
      splitCStrings (cstrings [ascii "a", []]).dropLast ≠ [ascii "a", []] ∧
      splitCStrings (cstrings [[]]).dropLast = [] := by
  decide

/-- C19, amended. `splitCStrings` inverts NUL-terminated concatenation: for every
non-empty list of strings none of which contains a zero byte, `splitCStrings` applied
to the concatenation of each string followed by one zero byte returns exactly that list
in order; the same list is returned when the final zero byte is omitted, provided the
last string is not empty; and `splitCStrings` of the empty byte sequence returns the
empty list. -/
theorem splitCStrings_inverts (l : List Str) (hl : l ≠ []) (h0 : ∀ s ∈ l, (0 : Byte) ∉ s) :
    splitCStrings (cstrings l) = l ∧
      (l.getLast? ≠ some [] → splitCStrings (cstrings l).dropLast = l) ∧
      splitCStrings [] = [] := by
  refine ⟨splitCStrings_cstrings l h0, ?_, rfl⟩
  intro hlast
  have hd := List.dropLast_concat_getLast hl
  have ht : l.getLast hl ≠ [] := by
    intro e
    apply hlast
    rw [List.getLast?_eq_getLast l hl, e]
  have := splitCStrings_dropLast_cstrings l.dropLast (l.getLast hl) ht (by rw [hd]; exact h0)
  rwa [hd] at this

theorem splitCStrings_inverts_witness :
    [ascii "From", ascii "a@b"] ≠ [] ∧
      (∀ s ∈ [ascii "From", ascii "a@b"], (0 : Byte) ∉ s) ∧
      splitCStrings (cstrings [ascii "From", ascii "a@b"]) = [ascii "From", ascii "a@b"] ∧
      [ascii "From", ascii "a@b"].getLast? ≠ some [] ∧
      splitCStrings (cstrings [ascii "From", ascii "a@b"]).dropLast =
        [ascii "From", ascii "a@b"] :=
  ⟨by decide, by decide,
    (splitCStrings_inverts [ascii "From", ascii "a@b"] (by decide) (by decide)).1,
    by decide,
    (splitCStrings_inverts [ascii "From", ascii "a@b"] (by decide) (by decide)).2.1 (by decide)⟩

/-! ## Theorems: recipient mutations -/

theorem stripBrackets_enclosed (r : Str) (o c : Byte) (hr : r ≠ []) :
    stripBrackets ([o] ++ r ++ [c]) [o, c] = r := by
  have hpos : 0 < r.length := List.length_pos.mpr hr
  have hlen : ([o] ++ r ++ [c]).length = r.length + 2 := by simp
  have hlast : ([o] ++ r ++ [c]).getD (([o] ++ r ++ [c]).length - 1) 0 = c := by
    have h1 : ([o] ++ r ++ [c]).length - 1 = ([o] ++ r).length := by simp
    rw [h1, List.getD_append_right _ _ _ _ (le_refl _)]
    simp
  have htake : ([o] ++ r ++ [c]).take (([o] ++ r ++ [c]).length - 1) = [o] ++ r := by
    have h1 : ([o] ++ r ++ [c]).length - 1 = ([o] ++ r).length := by simp
    rw [h1, List.take_left']
    rfl
  unfold stripBrackets
  rw [if_pos]
  · rw [htake]
    rfl
  · refine ⟨by rw [hlen]; omega, rfl, ?_⟩
    rw [hlast]
    rfl

/-- C20. Recipient mutations carry the address in angle brackets: for every recipient
string `r`, an `AddRecipient(r)` whose write succeeds writes one packet with action byte
`'+'`, and a `DeleteRecipient(r)` one packet with action byte `'-'`, whose payload is
`<` followed by `r` followed by `>` followed by one zero byte; and for every non-empty
`r`, `stripBrackets` with `<>` applied to the bracketed text returns `r`. -/
theorem recipient_brackets (c : conn) (r : Str) (hbw : c.bwErr = none)
    (hq : ∀ q, c.quota = some q → r.length + 8 ≤ q) :
    (c.AddRecipient r).output = c.output ++ packetBytes 43 ([60] ++ r ++ [62] ++ [0]) ∧
      (c.DeleteRecipient r).output = c.output ++ packetBytes 45 ([60] ++ r ++ [62] ++ [0]) ∧
      (r ≠ [] → stripBrackets ([60] ++ r ++ [62]) [60, 62] = r) ∧
      ((newConn [] none).AddRecipient (ascii "a@b")).output =
        [0, 0, 0, 7, 43] ++ ascii "<a@b>" ++ [0] := by
  have henc : encode (.string ([60] ++ r ++ [62])) = [60] ++ r ++ [62] ++ [0] := by
    simp [encode, encoder.encode]
  have hq' : ∀ code, ∀ q, c.quota = some q →
      (packetBytes code ([60] ++ r ++ [62] ++ [0])).length ≤ q := by
    intro code q hq1
    have := hq q hq1
    simp only [packetBytes_length, List.length_append, List.length_singleton]
    omega
  refine ⟨?_, ?_, stripBrackets_enclosed r 60 62, by decide⟩
  · rw [conn.AddRecipient, henc, writeModification_ok c _ _ hbw (hq' 43)]
  · rw [conn.DeleteRecipient, henc, writeModification_ok c _ _ hbw (hq' 45)]

theorem recipient_brackets_witness :
    (newConn [] (some 12)).bwErr = none ∧
      ((newConn [] (some 12)).DeleteRecipient (ascii "x@y")).output =
        (newConn [] (some 12)).output ++ packetBytes 45 ([60] ++ ascii "x@y" ++ [62] ++ [0]) ∧
      (ascii "x@y" ≠ [] → stripBrackets ([60] ++ ascii "x@y" ++ [62]) [60, 62] = ascii "x@y") :=
  ⟨rfl,
    (recipient_brackets (newConn [] (some 12)) (ascii "x@y") rfl
      (by intro q h; cases h; decide)).2.1,
    (recipient_brackets (newConn [] (some 12)) (ascii "x@y") rfl
      (by intro q h; cases h; decide)).2.2.1⟩

end MilterPkg
